import Mathlib

/-!
A verification development for the tsgo-turbo analysis coordinator.

The TypeScript sources are shallowly embedded: classes become structures,
methods become pure functions with explicit state passing, `Date.now()` and
the outcomes of external child processes become explicit parameters, and
JavaScript `Promise` resolution/rejection is recorded in explicit logs.
JavaScript numbers that are always integral in the source are modelled as
`Nat`/`Int`.  Loops whose termination depends on runtime progress are given
explicit fuel; a `none` result marks the situation in which the JavaScript
loop would spin forever.
-/

namespace TsgoTurbo

/-! ## Shared data model (packages/shared/src/types.ts) -/

/-- The canonical severity set, `DiagnosticSeverity` in shared/types.ts. -/
inductive DiagnosticSeverity where
  | error
  | warning
  | info
  | hint
deriving DecidableEq, Repr

/-- The producing tool, `DiagnosticSource` in shared/types.ts
(`tsgo-turbo` is spelled `tsgoTurbo`). -/
inductive DiagnosticSource where
  | tsgo
  | oxc
  | tsgoTurbo
deriving DecidableEq, Repr

/-- A byte span in oxc fix payloads.  The TS field `end` is a Lean keyword
and is spelled `stop` here. -/
structure OxcSpan where
  start : Nat
  stop : Nat
deriving DecidableEq, Repr

/-- One edit of an oxc fix payload. -/
structure OxcFixEdit where
  span : OxcSpan
  content : String
deriving DecidableEq, Repr

/-- An oxc auto-fix payload (`fix` on `OxcRawDiagnostic`). -/
structure OxcFix where
  message : String
  edits : List OxcFixEdit
deriving DecidableEq, Repr

/-- The `data` record attached by `OxcIntegration.convertDiagnostic`: the
keys `fix` and `help` when present. -/
structure OxcExtraData where
  fix : Option OxcFix
  help : Option String
deriving DecidableEq, Repr

/-- `TurbodiagnosticItem` from shared/types.ts. -/
structure TurbodiagnosticItem where
  file : String
  line : Int
  column : Int
  endLine : Option Int
  endColumn : Option Int
  message : String
  severity : DiagnosticSeverity
  source : DiagnosticSource
  code : Option String
  computeTimeMs : Nat
  data : Option OxcExtraData
deriving DecidableEq, Repr

/-- `FileAnalysisResult` from shared/types.ts. -/
structure FileAnalysisResult where
  uri : String
  diagnostics : List TurbodiagnosticItem
  analysisTimeMs : Nat
  cached : Bool
  contentHash : String
deriving DecidableEq, Repr

/-! ## FileCache (src/cache/fileCache.ts, src/unnamed/part_004)

The JavaScript `Map` is modelled as an insertion-ordered association list:
`Map.get` is the first match, `Map.delete` removes that match, and a `set`
of a fresh key appends at the end (the source always deletes an existing
key before setting it, so appending is the only insertion ever performed).
All byte counters mirror the source arithmetic; `totalSizeBytes` is an
`Int` because the source decrements it. -/

/-- `CacheEntry<T>` from shared/types.ts. -/
structure CacheEntry (T : Type) where
  data : T
  contentHash : String
  createdAt : Nat
  accessCount : Nat
  lastAccessedAt : Nat
  sizeBytes : Nat
deriving DecidableEq, Repr

/-- The cache section of `TsgoTurboConfig` after the unit conversions in the
`FileCache` constructor (`maxSizeMb * 1024 * 1024`, `ttlSeconds * 1000`). -/
structure CacheConfig where
  maxEntries : Nat
  maxSizeBytes : Nat
  ttlMs : Nat
deriving DecidableEq, Repr

/-- The mutable state of a `FileCache<T>` instance. -/
structure FileCache (T : Type) where
  entries : List (String × CacheEntry T)
  maxEntries : Nat
  maxSizeBytes : Nat
  ttlMs : Nat
  totalSizeBytes : Int
  hits : Nat
  misses : Nat
  evictions : Nat
deriving DecidableEq, Repr

namespace FileCache

/-- The state of a freshly constructed `FileCache`. -/
def init (T : Type) (cfg : CacheConfig) : FileCache T :=
  { entries := []
    maxEntries := cfg.maxEntries
    maxSizeBytes := cfg.maxSizeBytes
    ttlMs := cfg.ttlMs
    totalSizeBytes := 0
    hits := 0
    misses := 0
    evictions := 0 }

/-- `FileCache.deleteEntry`: look the key up, subtract its size estimate and
remove it; the Bool mirrors the source's return value. -/
def deleteEntry {T : Type} (c : FileCache T) (uri : String) : FileCache T × Bool :=
  match c.entries.lookup uri with
  | none => (c, false)
  | some e =>
    ({ c with
        entries := c.entries.eraseP (fun p => p.1 == uri)
        totalSizeBytes := c.totalSizeBytes - (e.sizeBytes : Int) }, true)

/-- `FileCache.get`: miss on absent key, stale hash (entry deleted) or TTL
expiry (entry deleted); a hit bumps `accessCount`/`lastAccessedAt`.
`now` stands for `Date.now()`. -/
def get {T : Type} (c : FileCache T) (uri contentHash : String) (now : Nat) :
    Option T × FileCache T :=
  match c.entries.lookup uri with
  | none => (none, { c with misses := c.misses + 1 })
  | some e =>
    if e.contentHash ≠ contentHash then
      (none, (deleteEntry { c with misses := c.misses + 1 } uri).1)
    else if now - e.createdAt > c.ttlMs then
      (none, (deleteEntry { c with misses := c.misses + 1 } uri).1)
    else
      (some e.data,
        { c with
            hits := c.hits + 1
            entries := c.entries.map (fun p =>
              if p.1 == uri then
                (p.1, { p.2 with
                          accessCount := p.2.accessCount + 1
                          lastAccessedAt := now })
              else p) })

/-- `FileCache.evictLRU`'s scan: fold over the entries keeping the first
strictly smallest `lastAccessedAt` (the source starts from
`oldestAccess = Infinity` and uses a strict comparison). -/
def minLRU {T : Type} (entries : List (String × CacheEntry T)) : Option String :=
  (entries.foldl
    (fun acc p =>
      match acc with
      | none => some (p.1, p.2.lastAccessedAt)
      | some ua => if p.2.lastAccessedAt < ua.2 then some (p.1, p.2.lastAccessedAt) else some ua)
    none).map (fun ua => ua.1)

/-- `FileCache.evictLRU`: the guard `if (oldestUri)` is JavaScript
truthiness, so the empty-string key is never deleted. -/
def evictLRU {T : Type} (c : FileCache T) : FileCache T :=
  match minLRU c.entries with
  | none => c
  | some u =>
    if u = "" then c
    else
      let c2 := (deleteEntry c u).1
      { c2 with evictions := c2.evictions + 1 }

/-- The first `while` of `FileCache.evictIfNeeded` (entry-count bound).
Fuel counts loop iterations; `none` models the loop spinning forever
because `evictLRU` removed nothing while the bound was still exceeded. -/
def evictByCount {T : Type} : Nat → FileCache T → Option (FileCache T)
  | fuel, c =>
    if c.entries.length > c.maxEntries then
      match fuel with
      | 0 => none
      | f + 1 =>
        let c2 := evictLRU c
        if c2.entries.length < c.entries.length then evictByCount f c2 else none
    else some c

/-- The second `while` of `FileCache.evictIfNeeded` (byte bound). -/
def evictBySize {T : Type} : Nat → FileCache T → Option (FileCache T)
  | fuel, c =>
    if c.totalSizeBytes > (c.maxSizeBytes : Int) ∧ c.entries.length > 0 then
      match fuel with
      | 0 => none
      | f + 1 =>
        let c2 := evictLRU c
        if c2.entries.length < c.entries.length then evictBySize f c2 else none
    else some c

/-- `FileCache.evictIfNeeded`: both loops in sequence.  The fuel
`entries.length` is always sufficient when every iteration evicts. -/
def evictIfNeeded {T : Type} (c : FileCache T) : Option (FileCache T) :=
  (evictByCount c.entries.length c).bind (fun c1 => evictBySize c1.entries.length c1)

/-- `FileCache.set`: delete any prior entry, append the new one, add the
size estimate, then evict.  The size estimate (`estimateSize`, a JSON
serialization length) is passed in explicitly as `sizeBytes`. -/
def set {T : Type} (c : FileCache T) (uri contentHash : String) (data : T)
    (sizeBytes now : Nat) : Option (FileCache T) :=
  let c1 := if (c.entries.lookup uri).isSome then (deleteEntry c uri).1 else c
  let entry : CacheEntry T :=
    { data := data
      contentHash := contentHash
      createdAt := now
      accessCount := 0
      lastAccessedAt := now
      sizeBytes := sizeBytes }
  evictIfNeeded
    { c1 with
        entries := c1.entries ++ [(uri, entry)]
        totalSizeBytes := c1.totalSizeBytes + (sizeBytes : Int) }

/-- `FileCache.invalidate`. -/
def invalidate {T : Type} (c : FileCache T) (uri : String) : FileCache T :=
  (deleteEntry c uri).1

/-- The sum of the per-entry size estimates, the quantity the spec requires
to equal `totalSizeBytes`. -/
def sumSizes {T : Type} (c : FileCache T) : Int :=
  (c.entries.map (fun p => (p.2.sizeBytes : Int))).sum

end FileCache

/-! ## Severity mapping (TsgoIntegration.mapSeverity, OxcIntegration.mapSeverity)

`String.toLowerCase` is modelled character-wise (the raw severities are
ASCII).  The TS `switch` statements become `if` chains in source order. -/

/-- JavaScript `toLowerCase`, restricted to ASCII case mapping. -/
def lowerStr (s : String) : String := String.mk (s.data.map Char.toLower)

/-- `TsgoIntegration.mapSeverity`: unrecognized severities default to
`error`. -/
def tsgoMapSeverity (severity : String) : DiagnosticSeverity :=
  let s := lowerStr severity
  if s = "error" then .error
  else if s = "warning" ∨ s = "warn" then .warning
  else if s = "info" ∨ s = "information" then .info
  else if s = "hint" ∨ s = "suggestion" then .hint
  else .error

/-- `OxcIntegration.mapSeverity`: unrecognized severities default to
`warning`. -/
def oxcMapSeverity (severity : String) : DiagnosticSeverity :=
  let s := lowerStr severity
  if s = "error" ∨ s = "deny" then .error
  else if s = "warning" ∨ s = "warn" then .warning
  else if s = "info" ∨ s = "advice" then .info
  else if s = "hint" ∨ s = "help" then .hint
  else .warning

/-- The raw strings recognized by `TsgoIntegration.mapSeverity`. -/
def tsgoRecognizedSeverities : List String :=
  ["error", "warning", "warn", "info", "information", "hint", "suggestion"]

/-- The raw strings recognized by `OxcIntegration.mapSeverity`. -/
def oxcRecognizedSeverities : List String :=
  ["error", "deny", "warning", "warn", "info", "advice", "hint", "help"]

/-! ## OxcIntegration output handling (src/unnamed/part_006) -/

/-- A position in oxc JSON output (`start`/`end` objects). -/
structure OxcPos where
  line : Int
  column : Int
deriving DecidableEq, Repr

/-- `OxcRawDiagnostic` from the oxc integration.  The TS field `end` is
spelled `endPos`. -/
structure OxcRawDiagnostic where
  filename : Option String
  message : String
  severity : String
  rule_id : Option String
  ruleId : Option String
  start : Option OxcPos
  endPos : Option OxcPos
  fix : Option OxcFix
  help : Option String
deriving DecidableEq, Repr

/-- `OxcIntegration.convertDiagnostic`. -/
def convertDiagnostic (uri : String) (raw : OxcRawDiagnostic) (computeTimeMs : Nat) :
    TurbodiagnosticItem :=
  let ruleId :=
    match raw.rule_id with
    | some r => some r
    | none => raw.ruleId
  let line := match raw.start with | some p => p.line | none => 1
  let column := match raw.start with | some p => p.column | none => 1
  let dataPresent := raw.fix.isSome || raw.help.isSome
  { file := raw.filename.getD uri
    line := line
    column := column
    endLine := raw.endPos.map (fun p => p.line)
    endColumn := raw.endPos.map (fun p => p.column)
    message := raw.message
    severity := oxcMapSeverity raw.severity
    source := .oxc
    code := ruleId
    computeTimeMs := computeTimeMs
    data := if dataPresent then some { fix := raw.fix, help := raw.help } else none }

/-- One successful match of the fallback line regex in
`OxcIntegration.parseFallback`: the six capture groups. -/
structure FallbackMatch where
  file : String
  line : Int
  column : Int
  sev : String
  code : Option String
  msgText : String
deriving DecidableEq, Repr

/-- `OxcIntegration.parseFallback` on the lines that matched the regex
(`match[1] || uri` is JavaScript truthiness on the captured file name). -/
def parseFallback (uri : String) (ms : List FallbackMatch) (computeTimeMs : Nat) :
    List TurbodiagnosticItem :=
  ms.map (fun m =>
    { file := if m.file = "" then uri else m.file
      line := m.line
      column := m.column
      endLine := none
      endColumn := none
      message := m.msgText
      severity := oxcMapSeverity m.sev
      source := .oxc
      code := m.code
      computeTimeMs := computeTimeMs
      data := none })

/-- The stdout text of an oxc run as seen by `OxcIntegration.parseOutput`:
`output.trim()` emptiness and the outcome of `JSON.parse` are abstracted
into constructors (JSON lexing happens in the JavaScript runtime, outside
the embedded code). -/
inductive OxcStdoutView where
  | blank
  | jsonArr (items : List OxcRawDiagnostic)
  | jsonSingle (item : OxcRawDiagnostic)
  | nonJson (ms : List FallbackMatch)
deriving DecidableEq, Repr

/-- `OxcIntegration.parseOutput`: empty output is no diagnostics, a JSON
array (or single object) is converted item-wise, anything else goes through
the fallback line parser. -/
def parseOutput (uri : String) (output : OxcStdoutView) (computeTimeMs : Nat) :
    List TurbodiagnosticItem :=
  match output with
  | .blank => []
  | .jsonArr items => items.map (fun d => convertDiagnostic uri d computeTimeMs)
  | .jsonSingle item => [convertDiagnostic uri item computeTimeMs]
  | .nonJson ms => parseFallback uri ms computeTimeMs

/-- The `close` handler of `OxcIntegration.runOxcWithStdin`: `code` is the
child's exit code (`none` when killed by a signal), and the promise either
resolves with stdout or rejects with an error message. -/
def runOxcCloseOutcome (code : Option Int) (stdout stderr : String) : Except String String :=
  match code with
  | some c =>
    if c ≤ 1 then .ok stdout
    else if stdout ≠ "" then .ok stdout
    else .error ("oxc exited with code " ++ toString c ++ ": " ++ stderr.take 500)
  | none =>
    if stdout ≠ "" then .ok stdout
    else .error ("oxc exited with code null: " ++ stderr.take 500)

/-! ## AnalysisBridge merge and dedup (src/unnamed/part_006) -/

/-- The dedup key built by `AnalysisBridge.deduplicateDiagnostics`:
the template string `file:line:column:message`. -/
def dedupKey (d : TurbodiagnosticItem) : String :=
  d.file ++ ":" ++ toString d.line ++ ":" ++ toString d.column ++ ":" ++ d.message

/-- One step of the `seen` map update inside
`AnalysisBridge.deduplicateDiagnostics`: absent keys are appended, and an
existing entry is replaced in place only when the new diagnostic is from
tsgo and the stored one is not. -/
def seenInsert (seen : List (String × TurbodiagnosticItem)) (d : TurbodiagnosticItem) :
    List (String × TurbodiagnosticItem) :=
  let key := dedupKey d
  match seen.lookup key with
  | none => seen ++ [(key, d)]
  | some existing =>
    if d.source = .tsgo ∧ existing.source ≠ .tsgo then
      seen.map (fun p => if p.1 == key then (p.1, d) else p)
    else seen

/-- `AnalysisBridge.deduplicateDiagnostics`. -/
def deduplicateDiagnostics (diagnostics : List TurbodiagnosticItem) :
    List TurbodiagnosticItem :=
  (diagnostics.foldl seenInsert []).map (fun p => p.2)

/-- The outcomes of the two pool invocations awaited by
`Promise.allSettled` in `AnalysisBridge.executeAnalysis`: `some` is a
fulfilled result carrying that tool's diagnostics, `none` a rejection. -/
structure PoolsOutcome where
  tsgoOutcome : Option (List TurbodiagnosticItem)
  oxcOutcome : Option (List TurbodiagnosticItem)
deriving DecidableEq, Repr

/-- The merge performed by `AnalysisBridge.executeAnalysis`: diagnostics of
fulfilled outcomes are concatenated in tool order (tsgo first when enabled)
and deduplicated; rejected outcomes contribute nothing. -/
def executeAnalysisMerge (tsgoEnabled oxcEnabled : Bool) (out : PoolsOutcome) :
    List TurbodiagnosticItem :=
  let results :=
    (if tsgoEnabled then [out.tsgoOutcome] else []) ++
    (if oxcEnabled then [out.oxcOutcome] else [])
  deduplicateDiagnostics (results.filterMap id).flatten

/-- The bridge-level configuration bits read by `analyzeFile` and
`executeAnalysis`. -/
structure BridgeConfig where
  cacheEnabled : Bool
  tsgoEnabled : Bool
  oxcEnabled : Bool
deriving DecidableEq, Repr

/-- `AnalysisBridge.executeAnalysis` after the pool outcomes settled: build
the merged result, store it in the cache when enabled, and resolve with it.
`sizeEstimate` is the cache's size estimate of the merged result and `now`
the store time; `none` propagates a diverging cache eviction. -/
def executeAnalysisStep (cfg : BridgeConfig) (cache : FileCache FileAnalysisResult)
    (uri contentHash : String) (out : PoolsOutcome)
    (analysisTimeMs sizeEstimate now : Nat) :
    Option (FileAnalysisResult × FileCache FileAnalysisResult) :=
  let deduplicated := executeAnalysisMerge cfg.tsgoEnabled cfg.oxcEnabled out
  let mergedResult : FileAnalysisResult :=
    { uri := uri
      diagnostics := deduplicated
      analysisTimeMs := analysisTimeMs
      cached := false
      contentHash := contentHash }
  if cfg.cacheEnabled then
    (FileCache.set cache uri contentHash mergedResult sizeEstimate now).map
      (fun c => (mergedResult, c))
  else some (mergedResult, cache)

/-- `AnalysisBridge.analyzeFile` for one uncontended request, sequenced with
its own `executeAnalysis`: consult the cache unless forced (a hit returns a
copy with `cached := true`), otherwise run the analyzers and store.
`hashFn` stands for `FileCache.computeHash` (an arbitrary deterministic
digest). -/
def analyzeFileStep (cfg : BridgeConfig) (hashFn : String → String)
    (cache : FileCache FileAnalysisResult) (uri content : String) (force : Bool)
    (out : PoolsOutcome) (analysisTimeMs sizeEstimate now : Nat) :
    Option (FileAnalysisResult × FileCache FileAnalysisResult) :=
  let contentHash := hashFn content
  if !force && cfg.cacheEnabled then
    match FileCache.get cache uri contentHash now with
    | (some cachedRes, c2) => some ({ cachedRes with cached := true }, c2)
    | (none, c2) => executeAnalysisStep cfg c2 uri contentHash out analysisTimeMs sizeEstimate now
  else
    executeAnalysisStep cfg cache uri contentHash out analysisTimeMs sizeEstimate now

/-! ## AnalysisBridge queue (dedup / supersede, src/unnamed/part_006)

Queue items carry an id standing for their completion handle (resolve /
reject pair).  `supersededLog` records, in order, every completion rejected
with the superseded error. -/

/-- A `QueueItem` of the bridge (content and the handles are represented by
the numeric id). -/
structure QItem where
  id : Nat
  uri : String
  priority : Nat
  enqueuedAt : Nat
deriving DecidableEq, Repr

/-- The queue-related state of an `AnalysisBridge`. -/
structure BridgeQueueState where
  queue : List QItem
  dispatched : List QItem
  supersededLog : List Nat
  nextId : Nat
deriving DecidableEq, Repr

/-- Stable insertion of an item after all queued items of smaller or equal
priority. -/
def insertByPriority (it : QItem) : List QItem → List QItem
  | [] => [it]
  | x :: xs =>
    if x.priority ≤ it.priority then x :: insertByPriority it xs
    else it :: x :: xs

/-- The `queue.sort((a, b) => a.priority - b.priority)` call: a stable sort
by priority (ECMAScript `Array.prototype.sort` is stable), modelled as
stable insertion sort. -/
def sortByPriority (l : List QItem) : List QItem :=
  l.foldl (fun acc x => insertByPriority x acc) []

/-- The enqueue path of `AnalysisBridge.analyzeFile` after a cache miss:
supersede any queued item with the same uri (reject it, remove it), push
the new item, and re-sort the queue by priority. -/
def enqueueStep (s : BridgeQueueState) (uri : String) (priority now : Nat) :
    BridgeQueueState :=
  let removed : List QItem × List Nat :=
    match s.queue.find? (fun it => it.uri == uri) with
    | some old =>
      (s.queue.eraseP (fun it => it.uri == uri), s.supersededLog ++ [old.id])
    | none => (s.queue, s.supersededLog)
  let item : QItem := { id := s.nextId, uri := uri, priority := priority, enqueuedAt := now }
  { queue := sortByPriority (removed.1 ++ [item])
    dispatched := s.dispatched
    supersededLog := removed.2
    nextId := s.nextId + 1 }

/-- One `queue.shift()` of `AnalysisBridge.processQueue`: the head of the
queue becomes an in-flight analysis. -/
def dispatchStep (s : BridgeQueueState) : BridgeQueueState :=
  match s.queue with
  | [] => s
  | it :: rest => { s with queue := rest, dispatched := s.dispatched ++ [it] }

/-- The events that touch the bridge queue. -/
inductive BridgeEvent where
  | enqueue (uri : String) (priority now : Nat)
  | dispatchOne
deriving DecidableEq, Repr

/-- Apply one bridge queue event. -/
def applyBridgeEvent (s : BridgeQueueState) : BridgeEvent → BridgeQueueState
  | .enqueue uri priority now => enqueueStep s uri priority now
  | .dispatchOne => dispatchStep s

/-- The bridge queue state at construction time. -/
def initBridgeQueue : BridgeQueueState :=
  { queue := [], dispatched := [], supersededLog := [], nextId := 0 }

/-- Run a sequence of bridge queue events from the initial state. -/
def runBridgeEvents (evs : List BridgeEvent) : BridgeQueueState :=
  evs.foldl applyBridgeEvent initBridgeQueue

/-- The ids of all live requests (queued or dispatched). -/
def liveIds (s : BridgeQueueState) : List Nat :=
  s.queue.map (fun it => it.id) ++ s.dispatched.map (fun it => it.id)

/-- The bridge queue invariant: at most one queued item per uri, every
completion superseded at most once, live completions never superseded, and
all ids below the id counter. -/
def QueueInv (s : BridgeQueueState) : Prop :=
  (s.queue.map (fun it => it.uri)).Nodup ∧
  (liveIds s).Nodup ∧
  s.supersededLog.Nodup ∧
  (∀ i ∈ liveIds s, i < s.nextId) ∧
  (∀ i ∈ s.supersededLog, i < s.nextId) ∧
  (∀ i ∈ liveIds s, i ∉ s.supersededLog)

/-! ## TsgoIntegration process pool (src/unnamed/part_006)

Workers are identified by `wid` (standing for the process object / pid).
`listening = some rid` means the per-request stdout listener for request
`rid` is attached to that worker's stdout.  `timers` is the set of armed
per-request timeout handles, and the resolved/rejected logs record promise
settlement.  Child-process behavior (whether a stdin write succeeds,
whether a spawn succeeds) enters as Boolean parameters. -/

/-- The reason recorded when a checker request's promise is rejected. -/
inductive RejectReason where
  | timeout
  | writeFail
  | shutdown
deriving DecidableEq, Repr

/-- A pooled tsgo worker (`TsgoProcess`). -/
structure Worker where
  wid : Nat
  busy : Bool
  activeFile : Option String
  listening : Option Nat
  requestCount : Nat
deriving DecidableEq, Repr

/-- A queued checker request (`pendingRequests` element). -/
structure PendReq where
  rid : Nat
  uri : String
deriving DecidableEq, Repr

/-- The state of a `TsgoIntegration` pool. -/
structure PoolState where
  pool : List Worker
  pendingRequests : List PendReq
  timers : List Nat
  resolvedLog : List Nat
  rejectedLog : List (Nat × RejectReason)
  shuttingDown : Bool
  respawning : Bool
  poolSize : Nat
  nextWid : Nat
deriving DecidableEq, Repr

/-- `TsgoIntegration.sendToProcess`: mark the worker busy and attach the
stdout listener; a failing stdin write (`writeOk = false`) detaches the
listener again, clears the timer, frees the worker and rejects. -/
def sendToProcess (s : PoolState) (wid : Nat) (r : PendReq) (writeOk : Bool) : PoolState :=
  if writeOk then
    { s with
        pool := s.pool.map (fun w =>
          if w.wid == wid then
            { w with
                busy := true
                activeFile := some r.uri
                listening := some r.rid
                requestCount := w.requestCount + 1 }
          else w) }
  else
    { s with
        pool := s.pool.map (fun w =>
          if w.wid == wid then
            { w with
                busy := false
                activeFile := none
                listening := none
                requestCount := w.requestCount + 1 }
          else w)
        timers := s.timers.erase r.rid
        rejectedLog := s.rejectedLog ++ [(r.rid, .writeFail)] }

/-- The loop body of `TsgoIntegration.dispatchPending`: shift queued
requests onto idle workers until one side runs out. -/
def dispatchPendingAux (writeOk : Bool) : Nat → PoolState → PoolState
  | 0, s => s
  | fuel + 1, s =>
    match s.pendingRequests with
    | [] => s
    | r :: rest =>
      match s.pool.find? (fun w => !w.busy) with
      | none => s
      | some w =>
        dispatchPendingAux writeOk fuel
          (sendToProcess { s with pendingRequests := rest } w.wid r writeOk)

/-- `TsgoIntegration.dispatchPending` (fuel = queue length always
suffices: every iteration consumes one queued request). -/
def dispatchPending (s : PoolState) (writeOk : Bool) : PoolState :=
  dispatchPendingAux writeOk s.pendingRequests.length s

/-- `TsgoIntegration.dispatch`: arm the per-request timer, then either send
to an idle worker or queue. -/
def dispatch (s : PoolState) (rid : Nat) (uri : String) (writeOk : Bool) : PoolState :=
  let s1 := { s with timers := s.timers ++ [rid] }
  match s1.pool.find? (fun w => !w.busy) with
  | some w => sendToProcess s1 w.wid { rid := rid, uri := uri } writeOk
  | none => { s1 with pendingRequests := s1.pendingRequests ++ [{ rid := rid, uri := uri }] }

/-- The timeout callback armed in `TsgoIntegration.dispatch`: when the
timer is still active it removes the request from the pending queue (if
still there) and rejects the promise.  It touches neither the pool nor any
listener. -/
def timeoutFire (s : PoolState) (rid : Nat) : PoolState :=
  if rid ∈ s.timers then
    { s with
        timers := s.timers.erase rid
        pendingRequests := s.pendingRequests.eraseP (fun p => p.rid == rid)
        rejectedLog := s.rejectedLog ++ [(rid, .timeout)] }
  else s

/-- The `onData` completion path of `TsgoIntegration.sendToProcess` when a
full response line parses: detach the listener, clear the timer, free the
worker, resolve, and dispatch queued work. -/
def responseArrives (s : PoolState) (wid : Nat) (writeOk : Bool) : PoolState :=
  match s.pool.find? (fun w => w.wid == wid) with
  | none => s
  | some w =>
    match w.listening with
    | none => s
    | some rid =>
      let s1 :=
        { s with
            pool := s.pool.map (fun x =>
              if x.wid == wid then
                { x with busy := false, activeFile := none, listening := none }
              else x)
            timers := s.timers.erase rid
            resolvedLog := s.resolvedLog ++ [rid] }
      dispatchPending s1 writeOk

/-- The `exit` handler installed by `TsgoIntegration.spawnProcess`: detach
any active listener, remove the worker from the pool, and — outside
shutdown and guarded by the single-flight `respawning` flag — spawn one
replacement (`spawnOk` models whether the spawn throws) and re-dispatch
queued requests.  The in-flight promise is not settled here. -/
def workerExit (s : PoolState) (wid : Nat) (spawnOk writeOk : Bool) : PoolState :=
  match s.pool.find? (fun w => w.wid == wid) with
  | none => s
  | some _ =>
    let s1 := { s with pool := s.pool.eraseP (fun w => w.wid == wid) }
    if !s1.shuttingDown && !s1.respawning && s1.pool.length < s1.poolSize then
      if spawnOk then
        let fresh : Worker :=
          { wid := s1.nextWid, busy := false, activeFile := none, listening := none,
            requestCount := 0 }
        dispatchPending
          { s1 with pool := s1.pool ++ [fresh], nextWid := s1.nextWid + 1 } writeOk
      else s1
    else s1

/-! ## TypeCache with dependency graph
(src/packages/server/src/providers/diagnostics.ts)

The two adjacency maps are association lists from a uri to its neighbor
list (insertion-ordered, like the `Map<string, Set<string>>` of the
source). -/

/-- The state of a `TypeCache`. -/
structure TypeCacheState (T : Type) where
  cache : FileCache T
  dependsOn : List (String × List String)
  dependedOnBy : List (String × List String)
deriving DecidableEq, Repr

/-- The neighbor list of `u` in an adjacency map (empty when absent). -/
def succsOf (g : List (String × List String)) (u : String) : List String :=
  (g.lookup u).getD []

/-- One reverse-dependency edge: `b` depends on `a`, i.e. `b` is in
`dependedOnBy[a]`. -/
def DependedOnByEdge (g : List (String × List String)) (a b : String) : Prop :=
  b ∈ succsOf g a

/-- All uris mentioned by an adjacency map (keys and neighbor lists). -/
def nodesF (g : List (String × List String)) : Finset String :=
  g.foldr (fun p acc => insert p.1 acc ∪ p.2.toFinset) ∅

/-- The total number of edges of an adjacency map. -/
def edgeTotal (g : List (String × List String)) : Nat :=
  (g.map (fun p => p.2.length)).sum

/-- A bound on the number of remaining loop iterations of the BFS in
`TypeCache.invalidateWithDependents`, used as fuel. -/
def bfsMeasure (g : List (String × List String)) (visited queue : List String) : Nat :=
  ((nodesF g ∪ queue.toFinset) \ visited.toFinset).card * (edgeTotal g + 1) + queue.length

/-- The BFS loop of `TypeCache.invalidateWithDependents`: shift the queue,
skip already-invalidated uris, otherwise record the uri, drop its cache
entry and push its not-yet-invalidated dependents.  `none` is fuel
exhaustion (shown below never to happen at fuel `bfsMeasure`). -/
def bfsAux {T : Type} (g : List (String × List String)) :
    Nat → FileCache T → List String → List String →
    Option (List String × FileCache T)
  | _, cache, visited, [] => some (visited, cache)
  | 0, _, _, _ :: _ => none
  | fuel + 1, cache, visited, current :: rest =>
    if current ∈ visited then
      bfsAux g fuel cache visited rest
    else
      let visited2 := visited ++ [current]
      let cache2 := (FileCache.deleteEntry cache current).1
      let fresh := (succsOf g current).filter (fun d => !visited2.contains d)
      bfsAux g fuel cache2 visited2 (rest ++ fresh)

/-- `TypeCache.invalidateWithDependents`: run the BFS from `uri` over the
reverse dependency map, returning the invalidated set and the new state. -/
def invalidateWithDependents {T : Type} (tc : TypeCacheState T) (uri : String) :
    Option (List String × TypeCacheState T) :=
  (bfsAux tc.dependedOnBy (bfsMeasure tc.dependedOnBy [] [uri]) tc.cache [] [uri]).map
    (fun r => (r.1, { tc with cache := r.2 }))

/-- `TypeCache.addDependency`: record the forward edge and mirror the
reverse edge, each added only when absent (`Set.add`). -/
def addToAdjacency (m : List (String × List String)) (k v : String) :
    List (String × List String) :=
  match m.lookup k with
  | none => m ++ [(k, [v])]
  | some vs =>
    if v ∈ vs then m
    else m.map (fun p => if p.1 == k then (p.1, vs ++ [v]) else p)

/-- `TypeCache.addDependency` on the full state. -/
def addDependency {T : Type} (tc : TypeCacheState T) (fromUri toUri : String) :
    TypeCacheState T :=
  { tc with
      dependsOn := addToAdjacency tc.dependsOn fromUri toUri
      dependedOnBy := addToAdjacency tc.dependedOnBy toUri fromUri }

/-! ## Theorems -/

/-- C10: both severity mappers are total functions into the canonical
severity set, and they default differently on unrecognized raw strings
(after ASCII lowercasing): the checker integration falls back to `error`,
the linter integration to `warning`. -/
theorem c10_severity_mapping_defaults :
    (∀ s : String,
      tsgoMapSeverity s ∈ [DiagnosticSeverity.error, .warning, .info, .hint] ∧
      oxcMapSeverity s ∈ [DiagnosticSeverity.error, .warning, .info, .hint]) ∧
    (∀ s : String, lowerStr s ∉ tsgoRecognizedSeverities → tsgoMapSeverity s = .error) ∧
    (∀ s : String, lowerStr s ∉ oxcRecognizedSeverities → oxcMapSeverity s = .warning) := by
  refine ⟨fun s => ⟨?_, ?_⟩, fun s h => ?_, fun s h => ?_⟩
  · unfold tsgoMapSeverity
    dsimp only
    split_ifs <;> simp
  · unfold oxcMapSeverity
    dsimp only
    split_ifs <;> simp
  · simp only [tsgoRecognizedSeverities, List.mem_cons, List.not_mem_nil, or_false,
      not_or] at h
    unfold tsgoMapSeverity
    dsimp only
    split_ifs with h1 h2 h3 h4 <;> first | rfl | (exfalso; tauto)
  · simp only [oxcRecognizedSeverities, List.mem_cons, List.not_mem_nil, or_false,
      not_or] at h
    unfold oxcMapSeverity
    dsimp only
    split_ifs with h1 h2 h3 h4 <;> first | rfl | (exfalso; tauto)

/-- Witness for C10 at the concrete raw severity string `"Fancy"`. -/
theorem c10_severity_mapping_defaults_witness :
    lowerStr "Fancy" ∉ tsgoRecognizedSeverities ∧
    lowerStr "Fancy" ∉ oxcRecognizedSeverities ∧
    tsgoMapSeverity "Fancy" = .error ∧
    oxcMapSeverity "Fancy" = .warning :=
  ⟨by decide, by decide,
    c10_severity_mapping_defaults.2.1 "Fancy" (by decide),
    c10_severity_mapping_defaults.2.2 "Fancy" (by decide)⟩

/-- C8: exit codes 0 and 1 both resolve with stdout; an exit code above 1
rejects exactly when stdout is empty, and otherwise stdout is still parsed;
a JSON array of findings is converted element-wise, so two findings yield
two diagnostics with no error. -/
theorem c8_linter_exit_code_policy :
    (∀ stdout stderr : String, runOxcCloseOutcome (some 0) stdout stderr = .ok stdout) ∧
    (∀ stdout stderr : String, runOxcCloseOutcome (some 1) stdout stderr = .ok stdout) ∧
    (∀ (c : Int) (stderr : String), 1 < c →
      ∃ msg, runOxcCloseOutcome (some c) "" stderr = .error msg) ∧
    (∀ (c : Int) (stdout stderr : String), 1 < c → stdout ≠ "" →
      runOxcCloseOutcome (some c) stdout stderr = .ok stdout) ∧
    (∀ (uri : String) (d1 d2 : OxcRawDiagnostic) (t : Nat),
      parseOutput uri (.jsonArr [d1, d2]) t =
        [convertDiagnostic uri d1 t, convertDiagnostic uri d2 t]) := by
  refine ⟨fun s e => ?_, fun s e => ?_, fun c e hc => ?_, fun c s e hc hs => ?_,
    fun uri d1 d2 t => ?_⟩
  · simp [runOxcCloseOutcome]
  · simp [runOxcCloseOutcome]
  · refine ⟨"oxc exited with code " ++ toString c ++ ": " ++ e.take 500, ?_⟩
    simp [runOxcCloseOutcome, show ¬ c ≤ 1 by omega]
  · simp [runOxcCloseOutcome, show ¬ c ≤ 1 by omega, hs]
  · simp [parseOutput]

/-- Witness for C8 at exit code 2 and a concrete two-finding array. -/
theorem c8_linter_exit_code_policy_witness :
    ((1 : Int) < 2) ∧ ("[]" ≠ "") ∧
    runOxcCloseOutcome (some 2) "[]" "boom" = .ok "[]" ∧
    (∃ msg, runOxcCloseOutcome (some 2) "" "boom" = .error msg) ∧
    runOxcCloseOutcome (some 1) "[]" "" = .ok "[]" ∧
    parseOutput "u"
        (.jsonArr
          [{ filename := none, message := "m1", severity := "warning", rule_id := none,
             ruleId := none, start := none, endPos := none, fix := none, help := none },
           { filename := none, message := "m2", severity := "error", rule_id := none,
             ruleId := none, start := none, endPos := none, fix := none, help := none }]) 3 =
      [convertDiagnostic "u"
          { filename := none, message := "m1", severity := "warning", rule_id := none,
            ruleId := none, start := none, endPos := none, fix := none, help := none } 3,
       convertDiagnostic "u"
          { filename := none, message := "m2", severity := "error", rule_id := none,
            ruleId := none, start := none, endPos := none, fix := none, help := none } 3] :=
  ⟨by decide, by decide,
    c8_linter_exit_code_policy.2.2.2.1 2 "[]" "boom" (by decide) (by decide),
    c8_linter_exit_code_policy.2.2.1 2 "boom" (by decide),
    c8_linter_exit_code_policy.2.1 "[]" "",
    c8_linter_exit_code_policy.2.2.2.2 "u" _ _ 3⟩

/-- C7 counterexample: with `ttlSeconds = 0`, a `get` in the same
millisecond as the `set` that stored the entry returns the stored value —
the claim that every `get` is then a miss is false on the code
(`now - createdAt > ttlMs` is a strict comparison). -/
theorem c7_ttl_zero_counterexample :
    ((FileCache.set (FileCache.init Nat ⟨10, 100, 0⟩) "u" "h" 42 1 5).map
      (fun c1 => (FileCache.get c1 "u" "h" 5).1)) = some (some 42) := by decide

/-- C7 amended: with `ttlMs = 0`, every `get` performed strictly later (in
milliseconds) than the entry's creation is a miss; only a `get` within the
creation millisecond can return the stored value. -/
theorem c7_ttl_zero_later_get_misses {T : Type} (c : FileCache T) (uri hash : String)
    (now : Nat) (e : CacheEntry T)
    (httl : c.ttlMs = 0) (hlook : c.entries.lookup uri = some e)
    (hlt : e.createdAt < now) :
    (FileCache.get c uri hash now).1 = none := by
  unfold FileCache.get
  rw [hlook]
  dsimp only
  split_ifs with h1 h2
  · rfl
  · rfl
  · exfalso
    rw [httl] at h2
    omega

/-- Witness for C7 at a concrete one-entry cache and `now` one millisecond
after creation. -/
theorem c7_ttl_zero_later_get_misses_witness :
    (FileCache.mk [("u", CacheEntry.mk 42 "h" 5 0 5 1)] 10 100 0 1 0 0 0).ttlMs = 0 ∧
    (FileCache.mk [("u", CacheEntry.mk 42 "h" 5 0 5 1)] 10 100 0 1 0 0 0).entries.lookup "u" =
      some (CacheEntry.mk 42 "h" 5 0 5 1) ∧
    (CacheEntry.mk (42 : Nat) "h" 5 0 5 1).createdAt < 6 ∧
    (FileCache.get (FileCache.mk [("u", CacheEntry.mk 42 "h" 5 0 5 1)] 10 100 0 1 0 0 0)
      "u" "h" 6).1 = none :=
  ⟨rfl, by decide, by decide,
    c7_ttl_zero_later_get_misses
      (FileCache.mk [("u", CacheEntry.mk 42 "h" 5 0 5 1)] 10 100 0 1 0 0 0)
      "u" "h" 6 (CacheEntry.mk 42 "h" 5 0 5 1) rfl (by decide) (by decide)⟩

/-- A helper for association-like lists: when the mapped keys are distinct,
no element surviving `eraseP` on a key predicate still carries that key. -/
theorem eraseP_key_not_mem {α β : Type} [DecidableEq β] (f : α → β) (k : β) :
    ∀ (l : List α), (l.map f).Nodup →
      ∀ x ∈ l.eraseP (fun y => f y == k), f x ≠ k := by
  intro l
  induction l with
  | nil => intro _ x hx; simp [List.eraseP] at hx
  | cons a t ih =>
    intro hnd x hx
    rw [List.map_cons, List.nodup_cons] at hnd
    by_cases ha : f a = k
    · rw [List.eraseP_cons_of_pos (by simp [ha])] at hx
      intro hxk
      apply hnd.1
      rw [ha]
      exact List.mem_map.mpr ⟨x, hx, hxk⟩
    · rw [List.eraseP_cons_of_neg (by simp [ha])] at hx
      rcases List.mem_cons.mp hx with h | h
      · rw [h]; exact ha
      · exact ih hnd.2 x h

/-- A helper: with distinct mapped keys, `find?` on a key predicate returns
exactly the member carrying that key. -/
theorem find?_key_unique {α β : Type} [DecidableEq β] (f : α → β) (k : β) :
    ∀ (l : List α), (l.map f).Nodup →
      ∀ x ∈ l, f x = k → l.find? (fun y => f y == k) = some x := by
  intro l
  induction l with
  | nil => intro _ x hx; simp at hx
  | cons a t ih =>
    intro hnd x hx hxk
    rw [List.map_cons, List.nodup_cons] at hnd
    rw [List.find?_cons]
    rcases List.mem_cons.mp hx with h | h
    · subst h
      have hb : (f x == k) = true := by simp [hxk]
      rw [hb]
    · have hak : f a ≠ k := by
        intro hak
        exact hnd.1 (by
          rw [hak, ← hxk]
          exact List.mem_map.mpr ⟨x, h, rfl⟩)
      have hb : (f a == k) = false := by simp [hak]
      rw [hb]
      exact ih hnd.2 x h hxk

/-- C3 counterexample: a single-worker pool dispatches request 1, the
per-request timeout fires, and afterwards the promise is rejected but the
worker is still `busy` with the stdout listener for request 1 attached —
the claim that the timeout removes the listener and marks the worker idle
is false on the code. -/
theorem c3_timeout_counterexample :
    (timeoutFire
        (dispatch
          (PoolState.mk [Worker.mk 0 false none none 0] [] [] [] [] false false 1 1)
          1 "u" true)
        1).rejectedLog = [(1, RejectReason.timeout)] ∧
    (timeoutFire
        (dispatch
          (PoolState.mk [Worker.mk 0 false none none 0] [] [] [] [] false false 1 1)
          1 "u" true)
        1).pool = [Worker.mk 0 true (some "u") (some 1) 1] := by decide

/-- C3 amended: when the per-request timeout fires, the request's promise
is rejected and the request is removed from the pending queue if it was
still queued; the worker pool is left completely untouched (in particular
no worker is killed, no worker is marked idle, and the stdout listener of
an already-dispatched request stays attached until a response arrives or
the worker exits). -/
theorem c3_timeout_fails_completion_only (s : PoolState) (rid : Nat)
    (harmed : rid ∈ s.timers) :
    ∀ s2, s2 = timeoutFire s rid →
      s2.rejectedLog = s.rejectedLog ++ [(rid, RejectReason.timeout)] ∧
      s2.pendingRequests = s.pendingRequests.eraseP (fun p => p.rid == rid) ∧
      s2.pool = s.pool ∧
      s2.resolvedLog = s.resolvedLog := by
  intro s2 hs2
  subst hs2
  unfold timeoutFire
  rw [if_pos harmed]
  exact ⟨rfl, rfl, rfl, rfl⟩

/-- Witness for C3 at a concrete pool state with an armed timer. -/
theorem c3_timeout_fails_completion_only_witness :
    (1 ∈ (PoolState.mk [Worker.mk 0 true (some "u") (some 1) 1] [] [1] [] [] false false 1 1).timers) ∧
    ((timeoutFire (PoolState.mk [Worker.mk 0 true (some "u") (some 1) 1] [] [1] [] [] false false 1 1) 1).rejectedLog
        = [] ++ [(1, RejectReason.timeout)] ∧
      (timeoutFire (PoolState.mk [Worker.mk 0 true (some "u") (some 1) 1] [] [1] [] [] false false 1 1) 1).pendingRequests
        = List.eraseP (fun p => p.rid == 1) [] ∧
      (timeoutFire (PoolState.mk [Worker.mk 0 true (some "u") (some 1) 1] [] [1] [] [] false false 1 1) 1).pool
        = [Worker.mk 0 true (some "u") (some 1) 1] ∧
      (timeoutFire (PoolState.mk [Worker.mk 0 true (some "u") (some 1) 1] [] [1] [] [] false false 1 1) 1).resolvedLog
        = []) :=
  ⟨by decide,
    c3_timeout_fails_completion_only
      (PoolState.mk [Worker.mk 0 true (some "u") (some 1) 1] [] [1] [] [] false false 1 1)
      1 (by decide) _ rfl⟩

/-- Helper: with successful stdin writes, `dispatchPendingAux` changes only
the pool's busy/listener assignments and the pending queue; the settlement
logs, the timers and the pool size are untouched. -/
theorem dispatchPendingAux_stable (fuel : Nat) :
    ∀ s : PoolState,
      (dispatchPendingAux true fuel s).rejectedLog = s.rejectedLog ∧
      (dispatchPendingAux true fuel s).resolvedLog = s.resolvedLog ∧
      (dispatchPendingAux true fuel s).timers = s.timers ∧
      (dispatchPendingAux true fuel s).pool.length = s.pool.length := by
  induction fuel with
  | zero => intro s; exact ⟨rfl, rfl, rfl, rfl⟩
  | succ f ih =>
    intro s
    unfold dispatchPendingAux
    cases hp : s.pendingRequests with
    | nil => exact ⟨rfl, rfl, rfl, rfl⟩
    | cons r rest =>
      cases hf : s.pool.find? (fun w => !w.busy) with
      | none => exact ⟨rfl, rfl, rfl, rfl⟩
      | some w =>
        have hll := ih (sendToProcess { s with pendingRequests := rest } w.wid r true)
        simp only [sendToProcess, if_pos rfl] at hll ⊢
        simpa using hll

/-- Helper: `dispatchPendingAux` with enough fuel empties the queue or
fills every worker. -/
theorem dispatchPendingAux_post (fuel : Nat) :
    ∀ s : PoolState, s.pendingRequests.length ≤ fuel →
      (dispatchPendingAux true fuel s).pendingRequests = [] ∨
      (dispatchPendingAux true fuel s).pool.find? (fun w => !w.busy) = none := by
  induction fuel with
  | zero =>
    intro s hle
    have hempty : s.pendingRequests = [] := List.length_eq_zero.mp (Nat.le_zero.mp hle)
    left
    exact hempty
  | succ f ih =>
    intro s hle
    unfold dispatchPendingAux
    cases hp : s.pendingRequests with
    | nil => left; exact hp
    | cons r rest =>
      cases hf : s.pool.find? (fun w => !w.busy) with
      | none => right; exact hf
      | some w =>
        apply ih
        have hrest : rest.length ≤ f := by
          rw [hp] at hle
          simp at hle
          omega
        show (sendToProcess { s with pendingRequests := rest } w.wid r true).pendingRequests.length ≤ f
        rw [sendToProcess, if_pos rfl]
        exact hrest

/-- Helper: `dispatchPendingAux` never attaches a listener for a request id
absent from the queue. -/
theorem dispatchPendingAux_listening (fuel : Nat) (rid : Nat) :
    ∀ s : PoolState,
      (∀ p ∈ s.pendingRequests, p.rid ≠ rid) →
      (∀ x ∈ s.pool, x.listening ≠ some rid) →
      ∀ x ∈ (dispatchPendingAux true fuel s).pool, x.listening ≠ some rid := by
  induction fuel with
  | zero => intro s _ hw; exact hw
  | succ f ih =>
    intro s hp hw
    unfold dispatchPendingAux
    cases hpend : s.pendingRequests with
    | nil => exact hw
    | cons r rest =>
      cases hf : s.pool.find? (fun w => !w.busy) with
      | none => exact hw
      | some w =>
        apply ih
        · intro p hmem
          apply hp p
          rw [hpend]
          apply List.mem_cons_of_mem
          have : (sendToProcess { s with pendingRequests := rest } w.wid r true).pendingRequests
              = rest := by
            rw [sendToProcess, if_pos rfl]
          rw [this] at hmem
          exact hmem
        · intro x hx
          have hpl : (sendToProcess { s with pendingRequests := rest } w.wid r true).pool
              = s.pool.map (fun y =>
                  if y.wid == w.wid then
                    { y with
                        busy := true
                        activeFile := some r.uri
                        listening := some r.rid
                        requestCount := y.requestCount + 1 }
                  else y) := by
            rw [sendToProcess, if_pos rfl]
          rw [hpl] at hx
          rcases List.mem_map.mp hx with ⟨y, hy, hyx⟩
          by_cases hww : (y.wid == w.wid) = true
          · rw [if_pos hww] at hyx
            rw [← hyx]
            intro hcon
            exact hp r (by rw [hpend]; exact List.mem_cons_self r rest)
              (Option.some.inj hcon)
          · rw [if_neg hww] at hyx
            rw [← hyx]
            exact hw y hy

/-- C4 counterexample: a single-worker pool with request 1 in flight; the
worker exits.  The exit handling removes the worker and spawns a
replacement, but neither rejects nor resolves the in-flight promise — the
claim that the in-flight request's completion is failed by the exit
handling is false on the code (it is only failed later by the per-request
timer). -/
theorem c4_exit_counterexample :
    (workerExit
        (dispatch
          (PoolState.mk [Worker.mk 0 false none none 0] [] [] [] [] false false 1 1)
          1 "u" true)
        0 true true).rejectedLog = [] ∧
    (workerExit
        (dispatch
          (PoolState.mk [Worker.mk 0 false none none 0] [] [] [] [] false false 1 1)
          1 "u" true)
        0 true true).resolvedLog = [] ∧
    (workerExit
        (dispatch
          (PoolState.mk [Worker.mk 0 false none none 0] [] [] [] [] false false 1 1)
          1 "u" true)
        0 true true).pool = [Worker.mk 1 false none none 0] := by decide

/-- C4 amended: when a worker exits outside shutdown, it is removed from
the pool and (guarded by the single-flight `respawning` flag) exactly one
replacement is spawned, after which queued requests are re-dispatched; the
stdout listener of the in-flight request is detached, so no pool worker
listens for it any more, but its completion is neither resolved nor
rejected by the exit handling — it is failed only when its still-armed
per-request timer later fires.  When a respawn is already in flight
(`respawning = true`), the exit removes the worker and spawns nothing. -/
theorem c4_worker_exit_behavior :
    (∀ (s : PoolState) (wid rid : Nat) (w : Worker),
      s.pool.find? (fun x => x.wid == wid) = some w →
      (s.pool.map (fun x => x.wid)).Nodup →
      s.shuttingDown = false →
      s.respawning = false →
      s.pool.length ≤ s.poolSize →
      rid ∈ s.timers →
      (∀ p ∈ s.pendingRequests, p.rid ≠ rid) →
      (∀ x ∈ s.pool, x.listening = some rid → x.wid = wid) →
      ∀ s2, s2 = workerExit s wid true true →
        s2.pool.length = s.pool.length ∧
        (∀ x ∈ s2.pool, x.listening ≠ some rid) ∧
        s2.resolvedLog = s.resolvedLog ∧
        s2.rejectedLog = s.rejectedLog ∧
        rid ∈ s2.timers ∧
        (timeoutFire s2 rid).rejectedLog = s.rejectedLog ++ [(rid, RejectReason.timeout)] ∧
        (s2.pendingRequests = [] ∨ s2.pool.find? (fun x => !x.busy) = none)) ∧
    (∀ (s : PoolState) (wid : Nat) (w : Worker),
      s.pool.find? (fun x => x.wid == wid) = some w →
      s.respawning = true →
      (workerExit s wid true true).pool = s.pool.eraseP (fun x => x.wid == wid) ∧
      (workerExit s wid true true).nextWid = s.nextWid) := by
  constructor
  · intro s wid rid w hfind hnd hsd hrs hlen htimer hpend honly s2 hs2
    have hwmem : w ∈ s.pool := List.mem_of_find?_eq_some hfind
    have hwwid := List.find?_some hfind
    have hlen1 : (s.pool.eraseP (fun x => x.wid == wid)).length = s.pool.length - 1 :=
      List.length_eraseP_of_mem hwmem hwwid
    have hpos : 0 < s.pool.length := List.length_pos_of_mem hwmem
    have hguard : (s.pool.eraseP (fun x => x.wid == wid)).length < s.poolSize := by
      omega
    -- the state after erase and replacement push, before re-dispatch
    have hs2eq : s2 = dispatchPending
        { s with
            pool := s.pool.eraseP (fun x => x.wid == wid) ++
              [{ wid := s.nextWid, busy := false, activeFile := none, listening := none,
                 requestCount := 0 }]
            nextWid := s.nextWid + 1 } true := by
      rw [hs2]
      unfold workerExit
      rw [hfind]
      have hcond :
          (!({ s with pool := s.pool.eraseP (fun x => x.wid == wid) } : PoolState).shuttingDown &&
            !({ s with pool := s.pool.eraseP (fun x => x.wid == wid) } : PoolState).respawning &&
            decide (({ s with pool := s.pool.eraseP (fun x => x.wid == wid) } : PoolState).pool.length <
              ({ s with pool := s.pool.eraseP (fun x => x.wid == wid) } : PoolState).poolSize)) = true := by
        simp only [hsd, hrs]
        simpa using hguard
      rw [if_pos hcond, if_pos rfl]
    set mid : PoolState :=
      { s with
          pool := s.pool.eraseP (fun x => x.wid == wid) ++
            [{ wid := s.nextWid, busy := false, activeFile := none, listening := none,
               requestCount := 0 }]
          nextWid := s.nextWid + 1 } with hmid
    have hstable := dispatchPendingAux_stable mid.pendingRequests.length mid
    have hlisten : ∀ x ∈ s2.pool, x.listening ≠ some rid := by
      rw [hs2eq]
      apply dispatchPendingAux_listening
      · intro p hm
        exact hpend p hm
      · intro x hx
        rcases List.mem_append.mp hx with hx | hx
        · intro hcon
          have hxwid := honly x ((List.eraseP_sublist s.pool).subset hx) hcon
          exact eraseP_key_not_mem (fun y => y.wid) wid s.pool hnd x hx hxwid
        · rcases List.mem_singleton.mp hx with rfl
          simp
    refine ⟨?_, hlisten, ?_, ?_, ?_, ?_, ?_⟩
    · rw [hs2eq]
      show (dispatchPendingAux true mid.pendingRequests.length mid).pool.length = _
      rw [hstable.2.2.2]
      simp only [hmid, List.length_append, List.length_singleton, hlen1]
      omega
    · rw [hs2eq]
      exact hstable.2.1
    · rw [hs2eq]
      exact hstable.1
    · rw [hs2eq]
      show rid ∈ (dispatchPendingAux true mid.pendingRequests.length mid).timers
      rw [hstable.2.2.1]
      exact htimer
    · have htimer2 : rid ∈ s2.timers := by
        rw [hs2eq]
        show rid ∈ (dispatchPendingAux true mid.pendingRequests.length mid).timers
        rw [hstable.2.2.1]
        exact htimer
      have hrej2 : s2.rejectedLog = s.rejectedLog := by
        rw [hs2eq]; exact hstable.1
      unfold timeoutFire
      rw [if_pos htimer2, hrej2]
    · rw [hs2eq]
      exact dispatchPendingAux_post mid.pendingRequests.length mid (Nat.le_refl _)
  · intro s wid w hfind hrs
    unfold workerExit
    rw [hfind]
    simp [hrs]

/-- Witness for C4 at a concrete one-worker pool with request 1 in flight
and at a concrete pool with a respawn already in flight. -/
theorem c4_worker_exit_behavior_witness :
    ((workerExit (PoolState.mk [Worker.mk 0 true (some "u") (some 1) 1] [] [1] [] [] false false 1 1)
        0 true true).pool.length =
      (PoolState.mk [Worker.mk 0 true (some "u") (some 1) 1] [] [1] [] [] false false 1 1).pool.length ∧
      (∀ x ∈ (workerExit (PoolState.mk [Worker.mk 0 true (some "u") (some 1) 1] [] [1] [] [] false false 1 1)
          0 true true).pool, x.listening ≠ some 1) ∧
      (workerExit (PoolState.mk [Worker.mk 0 true (some "u") (some 1) 1] [] [1] [] [] false false 1 1)
          0 true true).resolvedLog = [] ∧
      (workerExit (PoolState.mk [Worker.mk 0 true (some "u") (some 1) 1] [] [1] [] [] false false 1 1)
          0 true true).rejectedLog = [] ∧
      1 ∈ (workerExit (PoolState.mk [Worker.mk 0 true (some "u") (some 1) 1] [] [1] [] [] false false 1 1)
          0 true true).timers ∧
      (timeoutFire (workerExit (PoolState.mk [Worker.mk 0 true (some "u") (some 1) 1] [] [1] [] [] false false 1 1)
          0 true true) 1).rejectedLog = [] ++ [(1, RejectReason.timeout)] ∧
      ((workerExit (PoolState.mk [Worker.mk 0 true (some "u") (some 1) 1] [] [1] [] [] false false 1 1)
          0 true true).pendingRequests = [] ∨
        (workerExit (PoolState.mk [Worker.mk 0 true (some "u") (some 1) 1] [] [1] [] [] false false 1 1)
          0 true true).pool.find? (fun x => !x.busy) = none)) ∧
    ((workerExit (PoolState.mk [Worker.mk 0 true (some "u") (some 1) 1] [] [] [] [] false true 1 1)
        0 true true).pool =
      (PoolState.mk [Worker.mk 0 true (some "u") (some 1) 1] [] [] [] [] false true 1 1).pool.eraseP
        (fun x => x.wid == 0) ∧
      (workerExit (PoolState.mk [Worker.mk 0 true (some "u") (some 1) 1] [] [] [] [] false true 1 1)
        0 true true).nextWid = 1) :=
  ⟨c4_worker_exit_behavior.1
      (PoolState.mk [Worker.mk 0 true (some "u") (some 1) 1] [] [1] [] [] false false 1 1)
      0 1 (Worker.mk 0 true (some "u") (some 1) 1)
      (by decide) (by decide) rfl rfl (by decide) (by decide)
      (by intro p hp; simp at hp) (by decide) _ rfl,
    c4_worker_exit_behavior.2
      (PoolState.mk [Worker.mk 0 true (some "u") (some 1) 1] [] [] [] [] false true 1 1)
      0 (Worker.mk 0 true (some "u") (some 1) 1) (by decide) rfl⟩

/-- Helper: a successful association-list lookup comes from a member pair. -/
theorem lookup_mem_pair {β : Type} (k : String) (v : β) :
    ∀ l : List (String × β), l.lookup k = some v → ∃ p ∈ l, p.1 = k ∧ p.2 = v := by
  intro l
  induction l with
  | nil => intro h; simp [List.lookup] at h
  | cons a t ih =>
    intro h
    rw [List.lookup_cons] at h
    by_cases hk : (k == a.1) = true
    · rw [hk] at h
      simp only at h
      exact ⟨a, List.mem_cons_self a t, (beq_iff_eq.mp hk).symm, Option.some.inj h⟩
    · rw [Bool.not_eq_true] at hk
      rw [hk] at h
      simp only at h
      rcases ih h with ⟨p, hp, hpk, hpv⟩
      exact ⟨p, List.mem_cons_of_mem a hp, hpk, hpv⟩

/-- Unfolding equation of `seenInsert` for an absent key. -/
theorem seenInsert_eq_append (seen : List (String × TurbodiagnosticItem))
    (d : TurbodiagnosticItem) (h : seen.lookup (dedupKey d) = none) :
    seenInsert seen d = seen ++ [(dedupKey d, d)] := by
  simp only [seenInsert]
  rw [h]

/-- Unfolding equation of `seenInsert` when the stored entry is replaced
(new diagnostic from tsgo, stored one not). -/
theorem seenInsert_eq_replace (seen : List (String × TurbodiagnosticItem))
    (d existing : TurbodiagnosticItem) (h : seen.lookup (dedupKey d) = some existing)
    (hcond : d.source = .tsgo ∧ existing.source ≠ .tsgo) :
    seenInsert seen d =
      seen.map (fun p => if p.1 == dedupKey d then (p.1, d) else p) := by
  simp only [seenInsert]
  rw [h]
  simp only [if_pos hcond]

/-- Unfolding equation of `seenInsert` when the stored entry is kept. -/
theorem seenInsert_eq_keep (seen : List (String × TurbodiagnosticItem))
    (d existing : TurbodiagnosticItem) (h : seen.lookup (dedupKey d) = some existing)
    (hcond : ¬(d.source = .tsgo ∧ existing.source ≠ .tsgo)) :
    seenInsert seen d = seen := by
  simp only [seenInsert]
  rw [h]
  simp only [if_neg hcond]

/-- Helper: every pair produced by `seenInsert` keeps its own dedup key as
map key. -/
theorem seenInsert_key_inv (seen : List (String × TurbodiagnosticItem))
    (d : TurbodiagnosticItem) (hk : ∀ p ∈ seen, p.1 = dedupKey p.2) :
    ∀ p ∈ seenInsert seen d, p.1 = dedupKey p.2 := by
  cases hl : seen.lookup (dedupKey d) with
  | none =>
    rw [seenInsert_eq_append seen d hl]
    intro p hp
    rcases List.mem_append.mp hp with hp | hp
    · exact hk p hp
    · rcases List.mem_singleton.mp hp with rfl
      rfl
  | some existing =>
    by_cases hcond : d.source = .tsgo ∧ existing.source ≠ .tsgo
    · rw [seenInsert_eq_replace seen d existing hl hcond]
      intro p hp
      rcases List.mem_map.mp hp with ⟨q, hq, hqp⟩
      by_cases hqk : (q.1 == dedupKey d) = true
      · rw [if_pos hqk] at hqp
        rw [← hqp]
        simpa using beq_iff_eq.mp hqk
      · rw [if_neg hqk] at hqp
        rw [← hqp]
        exact hk q hq
    · rw [seenInsert_eq_keep seen d existing hl hcond]
      exact hk

/-- Helper: `seenInsert` keeps the map keys distinct. -/
theorem seenInsert_fst_nodup (seen : List (String × TurbodiagnosticItem))
    (d : TurbodiagnosticItem) (hnd : (seen.map Prod.fst).Nodup) :
    ((seenInsert seen d).map Prod.fst).Nodup := by
  cases hl : seen.lookup (dedupKey d) with
  | none =>
    rw [seenInsert_eq_append seen d hl, List.map_append, List.nodup_append]
    refine ⟨hnd, List.nodup_singleton _, ?_⟩
    intro k hk1 hk2
    rcases List.mem_map.mp hk1 with ⟨p, hp, hpk⟩
    rcases List.mem_singleton.mp hk2 with rfl
    have hne := (List.lookup_eq_none_iff.mp hl) p hp
    simp only [bne_iff_ne, ne_eq] at hne
    exact hne (by rw [hpk])
  | some existing =>
    by_cases hcond : d.source = .tsgo ∧ existing.source ≠ .tsgo
    · rw [seenInsert_eq_replace seen d existing hl hcond]
      have hmm : (seen.map (fun p =>
          if p.1 == dedupKey d then (p.1, d) else p)).map Prod.fst = seen.map Prod.fst := by
        rw [List.map_map]
        apply List.map_congr_left
        intro p _
        by_cases hpk : p.1 = dedupKey d
        · simp [hpk]
        · simp [hpk]
      rw [hmm]
      exact hnd
    · rw [seenInsert_eq_keep seen d existing hl hcond]
      exact hnd

/-- Helper: pairs produced by `seenInsert` are old pairs or carry the new
diagnostic. -/
theorem seenInsert_src (seen : List (String × TurbodiagnosticItem))
    (d : TurbodiagnosticItem) :
    ∀ p ∈ seenInsert seen d, p ∈ seen ∨ p.2 = d := by
  cases hl : seen.lookup (dedupKey d) with
  | none =>
    rw [seenInsert_eq_append seen d hl]
    intro p hp
    rcases List.mem_append.mp hp with hp | hp
    · exact Or.inl hp
    · rcases List.mem_singleton.mp hp with rfl
      exact Or.inr rfl
  | some existing =>
    by_cases hcond : d.source = .tsgo ∧ existing.source ≠ .tsgo
    · rw [seenInsert_eq_replace seen d existing hl hcond]
      intro p hp
      rcases List.mem_map.mp hp with ⟨q, hq, hqp⟩
      by_cases hqk : (q.1 == dedupKey d) = true
      · rw [if_pos hqk] at hqp
        rw [← hqp]
        exact Or.inr rfl
      · rw [if_neg hqk] at hqp
        rw [← hqp]
        exact Or.inl hq
    · rw [seenInsert_eq_keep seen d existing hl hcond]
      intro p hp
      exact Or.inl hp

/-- Helper: after `seenInsert`, some pair carries the inserted key. -/
theorem seenInsert_covers_new (seen : List (String × TurbodiagnosticItem))
    (d : TurbodiagnosticItem) :
    ∃ p ∈ seenInsert seen d, p.1 = dedupKey d := by
  cases hl : seen.lookup (dedupKey d) with
  | none =>
    rw [seenInsert_eq_append seen d hl]
    exact ⟨(dedupKey d, d), List.mem_append_right _ (List.mem_singleton_self _), rfl⟩
  | some existing =>
    rcases lookup_mem_pair (dedupKey d) existing seen hl with ⟨q, hq, hqk, _⟩
    by_cases hcond : d.source = .tsgo ∧ existing.source ≠ .tsgo
    · rw [seenInsert_eq_replace seen d existing hl hcond]
      refine ⟨(q.1, d), List.mem_map.mpr ⟨q, hq, ?_⟩, hqk⟩
      rw [if_pos (by simp [hqk])]
    · rw [seenInsert_eq_keep seen d existing hl hcond]
      exact ⟨q, hq, hqk⟩

/-- Helper: `seenInsert` never loses a key. -/
theorem seenInsert_covers_old (seen : List (String × TurbodiagnosticItem))
    (d : TurbodiagnosticItem) :
    ∀ q ∈ seen, ∃ p ∈ seenInsert seen d, p.1 = q.1 := by
  cases hl : seen.lookup (dedupKey d) with
  | none =>
    rw [seenInsert_eq_append seen d hl]
    intro q hq
    exact ⟨q, List.mem_append_left _ hq, rfl⟩
  | some existing =>
    by_cases hcond : d.source = .tsgo ∧ existing.source ≠ .tsgo
    · rw [seenInsert_eq_replace seen d existing hl hcond]
      intro q hq
      by_cases hqk : (q.1 == dedupKey d) = true
      · refine ⟨(q.1, d), List.mem_map.mpr ⟨q, hq, ?_⟩, rfl⟩
        rw [if_pos hqk]
      · refine ⟨q, List.mem_map.mpr ⟨q, hq, ?_⟩, rfl⟩
        rw [if_neg hqk]
    · rw [seenInsert_eq_keep seen d existing hl hcond]
      intro q hq
      exact ⟨q, hq, rfl⟩

/-- Helper: once the stored diagnostic under a key is from tsgo, it stays
from tsgo across `seenInsert`. -/
theorem seenInsert_locked (seen : List (String × TurbodiagnosticItem))
    (d : TurbodiagnosticItem) (k : String)
    (hlock : ∃ p ∈ seen, p.1 = k ∧ p.2.source = .tsgo) :
    ∃ p ∈ seenInsert seen d, p.1 = k ∧ p.2.source = .tsgo := by
  rcases hlock with ⟨p, hp, hpk, hps⟩
  cases hl : seen.lookup (dedupKey d) with
  | none =>
    rw [seenInsert_eq_append seen d hl]
    exact ⟨p, List.mem_append_left _ hp, hpk, hps⟩
  | some existing =>
    by_cases hcond : d.source = .tsgo ∧ existing.source ≠ .tsgo
    · rw [seenInsert_eq_replace seen d existing hl hcond]
      by_cases hqk : (p.1 == dedupKey d) = true
      · refine ⟨(p.1, d), List.mem_map.mpr ⟨p, hp, ?_⟩, hpk, hcond.1⟩
        rw [if_pos hqk]
      · refine ⟨p, List.mem_map.mpr ⟨p, hp, ?_⟩, hpk, hps⟩
        rw [if_neg hqk]
    · rw [seenInsert_eq_keep seen d existing hl hcond]
      exact ⟨p, hp, hpk, hps⟩

/-- Helper: inserting a tsgo diagnostic locks its key onto a tsgo record. -/
theorem seenInsert_locked_new (seen : List (String × TurbodiagnosticItem))
    (d : TurbodiagnosticItem) (hd : d.source = .tsgo) :
    ∃ p ∈ seenInsert seen d, p.1 = dedupKey d ∧ p.2.source = .tsgo := by
  cases hl : seen.lookup (dedupKey d) with
  | none =>
    rw [seenInsert_eq_append seen d hl]
    exact ⟨(dedupKey d, d), List.mem_append_right _ (List.mem_singleton_self _), rfl, hd⟩
  | some existing =>
    rcases lookup_mem_pair (dedupKey d) existing seen hl with ⟨q, hq, hqk, hqv⟩
    by_cases hcond : d.source = .tsgo ∧ existing.source ≠ .tsgo
    · rw [seenInsert_eq_replace seen d existing hl hcond]
      refine ⟨(q.1, d), List.mem_map.mpr ⟨q, hq, ?_⟩, hqk, hd⟩
      rw [if_pos (by simp [hqk])]
    · rw [seenInsert_eq_keep seen d existing hl hcond]
      rw [Classical.not_and_iff_or_not_not] at hcond
      rcases hcond with hcon | hcon
      · exact absurd hd hcon
      · rw [Classical.not_not] at hcon
        exact ⟨q, hq, hqk, by rw [hqv]; exact hcon⟩

/-- Helper: the fold underlying `deduplicateDiagnostics` preserves the
key/nodup invariants, and its output pairs come from the accumulator or the
input list. -/
theorem dedupFold_inv (l : List TurbodiagnosticItem) :
    ∀ acc : List (String × TurbodiagnosticItem),
      (∀ p ∈ acc, p.1 = dedupKey p.2) →
      (acc.map Prod.fst).Nodup →
      (∀ p ∈ l.foldl seenInsert acc, p.1 = dedupKey p.2) ∧
      ((l.foldl seenInsert acc).map Prod.fst).Nodup ∧
      (∀ p ∈ l.foldl seenInsert acc, p ∈ acc ∨ p.2 ∈ l) := by
  induction l with
  | nil =>
    intro acc hk hnd
    exact ⟨hk, hnd, fun p hp => Or.inl hp⟩
  | cons d ds ih =>
    intro acc hk hnd
    rw [List.foldl_cons]
    have hk2 := seenInsert_key_inv acc d hk
    have hnd2 := seenInsert_fst_nodup acc d hnd
    rcases ih (seenInsert acc d) hk2 hnd2 with ⟨ik, ind, isrc⟩
    refine ⟨ik, ind, ?_⟩
    intro p hp
    rcases isrc p hp with hacc | hmem
    · rcases seenInsert_src acc d p hacc with hacc | hd
      · exact Or.inl hacc
      · exact Or.inr (by rw [hd]; exact List.mem_cons_self d ds)
    · exact Or.inr (List.mem_cons_of_mem d hmem)

/-- Helper: the fold underlying `deduplicateDiagnostics` never loses a key
already present in the accumulator. -/
theorem dedupFold_covers_old (l : List TurbodiagnosticItem) :
    ∀ acc : List (String × TurbodiagnosticItem), ∀ q ∈ acc,
      ∃ p ∈ l.foldl seenInsert acc, p.1 = q.1 := by
  induction l with
  | nil => intro acc q hq; exact ⟨q, hq, rfl⟩
  | cons d ds ih =>
    intro acc q hq
    rw [List.foldl_cons]
    rcases seenInsert_covers_old acc d q hq with ⟨p, hp, hpk⟩
    rcases ih (seenInsert acc d) p hp with ⟨p2, hp2, hp2k⟩
    exact ⟨p2, hp2, by rw [hp2k, hpk]⟩

/-- Helper: every input diagnostic's key is represented in the fold
result. -/
theorem dedupFold_covers (l : List TurbodiagnosticItem) :
    ∀ acc : List (String × TurbodiagnosticItem), ∀ d ∈ l,
      ∃ p ∈ l.foldl seenInsert acc, p.1 = dedupKey d := by
  induction l with
  | nil => intro acc d hd; simp at hd
  | cons d0 ds ih =>
    intro acc d hd
    rw [List.foldl_cons]
    rcases List.mem_cons.mp hd with rfl | hd
    · rcases seenInsert_covers_new acc d with ⟨p, hp, hpk⟩
      rcases dedupFold_covers_old ds (seenInsert acc d) p hp with ⟨p2, hp2, hp2k⟩
      exact ⟨p2, hp2, by rw [hp2k, hpk]⟩
    · exact ih (seenInsert acc d0) d hd

/-- Helper: a locked key (stored diagnostic from tsgo) stays locked across
the whole fold. -/
theorem dedupFold_locked (l : List TurbodiagnosticItem) :
    ∀ acc : List (String × TurbodiagnosticItem), ∀ k : String,
      (∃ p ∈ acc, p.1 = k ∧ p.2.source = .tsgo) →
      ∃ p ∈ l.foldl seenInsert acc, p.1 = k ∧ p.2.source = .tsgo := by
  induction l with
  | nil => intro acc k h; exact h
  | cons d ds ih =>
    intro acc k h
    rw [List.foldl_cons]
    exact ih (seenInsert acc d) k (seenInsert_locked acc d k h)

/-- Helper: a tsgo diagnostic anywhere in the input locks its key in the
fold result. -/
theorem dedupFold_tsgo (l : List TurbodiagnosticItem) :
    ∀ acc : List (String × TurbodiagnosticItem), ∀ k : String,
      (∃ d ∈ l, dedupKey d = k ∧ d.source = .tsgo) →
      ∃ p ∈ l.foldl seenInsert acc, p.1 = k ∧ p.2.source = .tsgo := by
  induction l with
  | nil => intro acc k h; simp at h
  | cons d0 ds ih =>
    intro acc k h
    rw [List.foldl_cons]
    rcases h with ⟨d, hd, hdk, hds⟩
    rcases List.mem_cons.mp hd with rfl | hd
    · apply dedupFold_locked
      rcases seenInsert_locked_new acc d hds with ⟨p, hp, hpk, hps⟩
      exact ⟨p, hp, by rw [hpk, hdk], hps⟩
    · exact ih (seenInsert acc d0) k ⟨d, hd, hdk, hds⟩

/-- C6 counterexample: the dedup key is the colon-joined template string
`file:line:column:message`, not the 4-tuple; two diagnostics whose
(file, line, column, message) tuples differ are nevertheless merged when
the file or message contains colons, so "deduplicated by the key
(file, line, column, message)" is false on the code. -/
theorem c6_dedup_key_collision_counterexample :
    deduplicateDiagnostics
        [TurbodiagnosticItem.mk "a:1" 1 1 none none "m" .warning .oxc none 0 none,
         TurbodiagnosticItem.mk "a" 1 1 none none "1:m" .warning .oxc none 0 none] =
      [TurbodiagnosticItem.mk "a:1" 1 1 none none "m" .warning .oxc none 0 none] ∧
    (TurbodiagnosticItem.mk "a:1" 1 1 none none "m" .warning .oxc none 0 none).file ≠
      (TurbodiagnosticItem.mk "a" 1 1 none none "1:m" .warning .oxc none 0 none).file ∧
    (TurbodiagnosticItem.mk "a:1" 1 1 none none "m" .warning .oxc none 0 none).message ≠
      (TurbodiagnosticItem.mk "a" 1 1 none none "1:m" .warning .oxc none 0 none).message := by
  decide

/-- C6 amended: with both analyzers enabled, the pool outcomes are awaited
with settle-all semantics — a rejected analyzer contributes the empty list
while the other analyzer's diagnostics are still returned; the merged
diagnostics are deduplicated by the colon-joined string key
`file:line:column:message` (which can conflate distinct tuples when the
file or message contains a colon): every output diagnostic is an input
diagnostic, every input key is represented exactly once, and when some
input diagnostic with a given key is the checker's (tsgo), the surviving
record for that key is the checker's. -/
theorem c6_settle_all_merge_and_dedup :
    (∀ ds : List TurbodiagnosticItem,
      executeAnalysisMerge true true { tsgoOutcome := none, oxcOutcome := some ds } =
        deduplicateDiagnostics ds) ∧
    (∀ ds : List TurbodiagnosticItem,
      executeAnalysisMerge true true { tsgoOutcome := some ds, oxcOutcome := none } =
        deduplicateDiagnostics ds) ∧
    (executeAnalysisMerge true true { tsgoOutcome := none, oxcOutcome := none } = []) ∧
    (∀ l : List TurbodiagnosticItem, ∀ d ∈ deduplicateDiagnostics l, d ∈ l) ∧
    (∀ l : List TurbodiagnosticItem, ∀ d ∈ l,
      ∃ d2 ∈ deduplicateDiagnostics l, dedupKey d2 = dedupKey d) ∧
    (∀ l : List TurbodiagnosticItem, ((deduplicateDiagnostics l).map dedupKey).Nodup) ∧
    (∀ (l : List TurbodiagnosticItem) (k : String),
      (∃ d ∈ l, dedupKey d = k ∧ d.source = .tsgo) →
      ∀ d2 ∈ deduplicateDiagnostics l, dedupKey d2 = k → d2.source = .tsgo) := by
  refine ⟨fun ds => ?_, fun ds => ?_, ?_, fun l d hd => ?_, fun l d hd => ?_,
    fun l => ?_, fun l k hex d2 hd2 hkey => ?_⟩
  · simp [executeAnalysisMerge]
  · simp [executeAnalysisMerge]
  · simp [executeAnalysisMerge]
    rfl
  · rcases List.mem_map.mp hd with ⟨p, hp, hpd⟩
    rcases (dedupFold_inv l [] (by simp) (by simp)).2.2 p hp with hacc | hmem
    · simp at hacc
    · rw [← hpd]; exact hmem
  · rcases dedupFold_covers l [] d hd with ⟨p, hp, hpk⟩
    have hkeyinv := (dedupFold_inv l [] (by simp) (by simp)).1 p hp
    exact ⟨p.2, List.mem_map.mpr ⟨p, hp, rfl⟩, by rw [← hkeyinv, hpk]⟩
  · have hinv := dedupFold_inv l [] (by simp) (by simp)
    unfold deduplicateDiagnostics
    rw [List.map_map]
    have hcongr : (l.foldl seenInsert []).map (dedupKey ∘ Prod.snd) =
        (l.foldl seenInsert []).map Prod.fst := by
      apply List.map_congr_left
      intro p hp
      exact (hinv.1 p hp).symm
    rw [hcongr]
    exact hinv.2.1
  · rcases dedupFold_tsgo l [] k hex with ⟨p, hp, hpk, hps⟩
    rcases List.mem_map.mp hd2 with ⟨q, hq, hqd⟩
    have hinv := dedupFold_inv l [] (by simp) (by simp)
    have hqk : q.1 = k := by
      rw [hinv.1 q hq, hqd, hkey]
    have hqp : q = p := List.inj_on_of_nodup_map hinv.2.1 hq hp (by rw [hqk, hpk])
    rw [← hqd, hqp]
    exact hps

/-- Witness for C6 at a concrete checker/linter collision on the key
`f:1:1:m` and a concrete rejected-checker merge. -/
theorem c6_settle_all_merge_and_dedup_witness :
    (∃ d ∈ [TurbodiagnosticItem.mk "f" 1 1 none none "m" .warning .oxc none 0 none,
            TurbodiagnosticItem.mk "f" 1 1 none none "m" .error .tsgo none 0 none],
      dedupKey d = "f:1:1:m" ∧ d.source = .tsgo) ∧
    (∀ d2 ∈ deduplicateDiagnostics
        [TurbodiagnosticItem.mk "f" 1 1 none none "m" .warning .oxc none 0 none,
         TurbodiagnosticItem.mk "f" 1 1 none none "m" .error .tsgo none 0 none],
      dedupKey d2 = "f:1:1:m" → d2.source = .tsgo) ∧
    executeAnalysisMerge true true
        { tsgoOutcome := none,
          oxcOutcome := some [TurbodiagnosticItem.mk "f" 1 1 none none "m" .warning .oxc none 0 none] } =
      deduplicateDiagnostics
        [TurbodiagnosticItem.mk "f" 1 1 none none "m" .warning .oxc none 0 none] :=
  ⟨by decide,
    c6_settle_all_merge_and_dedup.2.2.2.2.2.2 _ "f:1:1:m" (by decide),
    c6_settle_all_merge_and_dedup.1 _⟩

/-- Helper: `FileCache.get` on an absent key only counts a miss. -/
theorem get_of_lookup_none {T : Type} (c : FileCache T) (uri hash : String) (now : Nat)
    (h : c.entries.lookup uri = none) :
    FileCache.get c uri hash now = (none, { c with misses := c.misses + 1 }) := by
  unfold FileCache.get
  rw [h]

/-- Helper: `FileCache.get` on a present, hash-matching, unexpired entry
returns the stored value and touches the entry's LRU bookkeeping. -/
theorem get_hit {T : Type} (c : FileCache T) (uri hash : String) (now : Nat)
    (e : CacheEntry T) (hlook : c.entries.lookup uri = some e)
    (hhash : e.contentHash = hash) (httl : now - e.createdAt ≤ c.ttlMs) :
    FileCache.get c uri hash now =
      (some e.data,
        { c with
            hits := c.hits + 1
            entries := c.entries.map (fun p =>
              if p.1 == uri then
                (p.1, { p.2 with
                          accessCount := p.2.accessCount + 1
                          lastAccessedAt := now })
              else p) }) := by
  unfold FileCache.get
  rw [hlook]
  dsimp only
  rw [if_neg (by simp [hhash]), if_neg (by omega)]

/-- Helper: `FileCache.set` of a fresh key that fits within both bounds
appends the entry and evicts nothing. -/
theorem set_fresh {T : Type} (c : FileCache T) (uri hash : String) (data : T)
    (sz now : Nat) (hlook : c.entries.lookup uri = none)
    (hcap : c.entries.length + 1 ≤ c.maxEntries)
    (hsz : c.totalSizeBytes + (sz : Int) ≤ (c.maxSizeBytes : Int)) :
    FileCache.set c uri hash data sz now =
      some
        { c with
            entries := c.entries ++
              [(uri, { data := data, contentHash := hash, createdAt := now,
                       accessCount := 0, lastAccessedAt := now, sizeBytes := sz })]
            totalSizeBytes := c.totalSizeBytes + (sz : Int) } := by
  unfold FileCache.set
  rw [hlook]
  simp only [Option.isSome_none, Bool.false_eq_true, if_false]
  unfold FileCache.evictIfNeeded
  unfold FileCache.evictByCount
  rw [if_neg (by
    simp only [List.length_append, List.length_singleton]
    omega)]
  rw [Option.some_bind]
  unfold FileCache.evictBySize
  rw [if_neg (by
    intro hcon
    have hcon1 := hcon.1
    simp only at hcon1
    omega)]

/-- C1: starting from a fresh cache with room for the result (capacity at
least one entry, size estimate within the byte bound), a first
`analyzeFile` with `force = false` and caching enabled computes and returns
`cached = false`, and a second call for the same uri and content within the
TTL consults the cache first and returns immediately with `cached = true`,
carrying the identical diagnostics list, whatever the analyzers would have
produced on the second run. -/
theorem c1_second_analyze_hits_cache
    (cfg : BridgeConfig) (ccfg : CacheConfig) (hashFn : String → String)
    (uri content : String) (out1 out2 : PoolsOutcome)
    (dur1 dur2 sz1 sz2 t1 t2 : Nat)
    (hen : cfg.cacheEnabled = true)
    (hcap : 1 ≤ ccfg.maxEntries)
    (hsz : (sz1 : Int) ≤ (ccfg.maxSizeBytes : Int))
    (httl : t2 - t1 ≤ ccfg.ttlMs) :
    ∃ r1 c1,
      analyzeFileStep cfg hashFn (FileCache.init FileAnalysisResult ccfg)
        uri content false out1 dur1 sz1 t1 = some (r1, c1) ∧
      r1.cached = false ∧
      ∃ r2 c2,
        analyzeFileStep cfg hashFn c1 uri content false out2 dur2 sz2 t2 = some (r2, c2) ∧
        r2.cached = true ∧
        r2.diagnostics = r1.diagnostics ∧
        r2.contentHash = hashFn content := by
  set M : FileAnalysisResult :=
    { uri := uri
      diagnostics := executeAnalysisMerge cfg.tsgoEnabled cfg.oxcEnabled out1
      analysisTimeMs := dur1
      cached := false
      contentHash := hashFn content } with hMdef
  set E : CacheEntry FileAnalysisResult :=
    { data := M, contentHash := hashFn content, createdAt := t1, accessCount := 0,
      lastAccessedAt := t1, sizeBytes := sz1 } with hEdef
  set C1st : FileCache FileAnalysisResult :=
    { entries := [(uri, E)]
      maxEntries := ccfg.maxEntries
      maxSizeBytes := ccfg.maxSizeBytes
      ttlMs := ccfg.ttlMs
      totalSizeBytes := (sz1 : Int)
      hits := 0
      misses := 1
      evictions := 0 } with hCdef
  have hfirst : analyzeFileStep cfg hashFn (FileCache.init FileAnalysisResult ccfg)
      uri content false out1 dur1 sz1 t1 = some (M, C1st) := by
    unfold analyzeFileStep
    rw [hen]
    dsimp only
    rw [get_of_lookup_none (FileCache.init FileAnalysisResult ccfg) uri (hashFn content) t1 rfl]
    show executeAnalysisStep cfg _ uri (hashFn content) out1 dur1 sz1 t1 = _
    unfold executeAnalysisStep
    rw [hen]
    dsimp only
    rw [set_fresh
      { FileCache.init FileAnalysisResult ccfg with
          misses := (FileCache.init FileAnalysisResult ccfg).misses + 1 }
      uri (hashFn content) _ sz1 t1 (by rfl)
      (by dsimp only [FileCache.init]; simpa using hcap)
      (by dsimp only [FileCache.init]; simpa using hsz)]
    dsimp only [Option.map]
    rw [hCdef, hEdef, hMdef]
    simp [FileCache.init]
  have hsecond : analyzeFileStep cfg hashFn C1st uri content false out2 dur2 sz2 t2 =
      some ({ M with cached := true },
        { C1st with
            hits := C1st.hits + 1
            entries := C1st.entries.map (fun p =>
              if p.1 == uri then
                (p.1, { p.2 with
                          accessCount := p.2.accessCount + 1
                          lastAccessedAt := t2 })
              else p) }) := by
    unfold analyzeFileStep
    rw [hen]
    dsimp only
    rw [get_hit C1st uri (hashFn content) t2 E
      (by rw [hCdef]; simp [List.lookup_cons])
      rfl
      (by rw [hCdef]; simpa using httl)]
    rfl
  exact ⟨M, C1st, hfirst, rfl, { M with cached := true }, _, hsecond, rfl, rfl, rfl⟩

/-- Witness for C1 at a concrete configuration, uri, content and analyzer
outcomes. -/
theorem c1_second_analyze_hits_cache_witness :
    (BridgeConfig.mk true true true).cacheEnabled = true ∧
    1 ≤ (CacheConfig.mk 2 100 1000).maxEntries ∧
    ((3 : Nat) : Int) ≤ (((CacheConfig.mk 2 100 1000).maxSizeBytes : Nat) : Int) ∧
    9 - 5 ≤ (CacheConfig.mk 2 100 1000).ttlMs ∧
    (∃ r1 c1,
      analyzeFileStep (BridgeConfig.mk true true true) (fun _ => "h")
        (FileCache.init FileAnalysisResult (CacheConfig.mk 2 100 1000))
        "file:///a.ts" "x" false (PoolsOutcome.mk none none) 7 3 5 = some (r1, c1) ∧
      r1.cached = false ∧
      ∃ r2 c2,
        analyzeFileStep (BridgeConfig.mk true true true) (fun _ => "h") c1
          "file:///a.ts" "x" false (PoolsOutcome.mk (some []) (some [])) 8 4 9 =
          some (r2, c2) ∧
        r2.cached = true ∧
        r2.diagnostics = r1.diagnostics ∧
        r2.contentHash = (fun _ : String => "h") "x") :=
  ⟨rfl, by decide, by decide, by decide,
    c1_second_analyze_hits_cache (BridgeConfig.mk true true true) (CacheConfig.mk 2 100 1000)
      (fun _ => "h") "file:///a.ts" "x" (PoolsOutcome.mk none none)
      (PoolsOutcome.mk (some []) (some [])) 7 8 3 4 5 9
      rfl (by decide) (by decide) (by decide)⟩

/-- Helper: stable insertion produces a permutation. -/
theorem insertByPriority_perm (it : QItem) :
    ∀ l : List QItem, (insertByPriority it l).Perm (it :: l) := by
  intro l
  induction l with
  | nil => exact List.Perm.refl _
  | cons x xs ih =>
    unfold insertByPriority
    split_ifs with hle
    · exact ((ih.cons x).trans (List.Perm.swap it x xs))
    · exact List.Perm.refl _

/-- Helper: the insertion-sort fold produces a permutation of the
accumulator followed by the input. -/
theorem foldl_insertByPriority_perm :
    ∀ (l : List QItem) (acc : List QItem),
      (l.foldl (fun acc x => insertByPriority x acc) acc).Perm (acc ++ l) := by
  intro l
  induction l with
  | nil => intro acc; simp
  | cons x xs ih =>
    intro acc
    rw [List.foldl_cons]
    refine (ih (insertByPriority x acc)).trans ?_
    refine (List.Perm.append_right xs (insertByPriority_perm x acc)).trans ?_
    exact List.perm_middle.symm

/-- Helper: `sortByPriority` permutes its input. -/
theorem sortByPriority_perm (l : List QItem) : (sortByPriority l).Perm l := by
  unfold sortByPriority
  simpa using foldl_insertByPriority_perm l []

/-- Helper: `enqueueStep` preserves the bridge queue invariant. -/
theorem enqueueStep_inv (s : BridgeQueueState) (uri : String) (prio now : Nat)
    (h : QueueInv s) : QueueInv (enqueueStep s uri prio now) := by
  obtain ⟨hu, hlive, hlog, hbnd, hlogbnd, hnotin⟩ := h
  have hqnodup : (s.queue.map (fun it => it.id)).Nodup :=
    (List.nodup_append.mp hlive).1
  have hdnodup : (s.dispatched.map (fun it => it.id)).Nodup :=
    (List.nodup_append.mp hlive).2.1
  have hdisj : (s.queue.map (fun it => it.id)).Disjoint
      (s.dispatched.map (fun it => it.id)) :=
    (List.nodup_append.mp hlive).2.2
  unfold enqueueStep
  cases hfind : s.queue.find? (fun it => it.uri == uri) with
  | none =>
    dsimp only
    simp only [QueueInv, liveIds]
    have hnm : ∀ x ∈ s.queue, x.uri ≠ uri := by
      intro x hx
      have := List.find?_eq_none.mp hfind x hx
      simpa using this
    have hqperm : (sortByPriority (s.queue ++
        [{ id := s.nextId, uri := uri, priority := prio, enqueuedAt := now }])).Perm
        (s.queue ++ [{ id := s.nextId, uri := uri, priority := prio, enqueuedAt := now }]) :=
      sortByPriority_perm _
    refine ⟨?_, ?_, hlog, ?_, ?_, ?_⟩
    · refine ((hqperm.map _).nodup_iff).mpr ?_
      rw [List.map_append]
      refine List.Nodup.append hu (List.nodup_singleton _) ?_
      intro k hk1 hk2
      rcases List.mem_map.mp hk1 with ⟨x, hx, hxk⟩
      rcases List.mem_singleton.mp hk2 with rfl
      exact hnm x hx hxk
    · show ((sortByPriority _).map (fun it => it.id) ++
        s.dispatched.map (fun it => it.id)).Nodup
      refine (((hqperm.map (fun it => it.id)).append_right _).nodup_iff).mpr ?_
      rw [List.map_append]
      have hswap : ((s.queue.map (fun it => it.id) ++ [s.nextId]) ++
          s.dispatched.map (fun it => it.id)).Perm
          (s.nextId :: (s.queue.map (fun it => it.id) ++
            s.dispatched.map (fun it => it.id))) := by
        refine (List.Perm.append_right _ List.perm_append_comm).trans ?_
        simp
      refine hswap.nodup_iff.mpr ?_
      refine List.Nodup.cons ?_ hlive
      intro hmem
      have := hbnd s.nextId hmem
      omega
    · intro i hi
      rcases List.mem_append.mp hi with hi | hi
      · rcases List.mem_map.mp hi with ⟨x, hx, hxi⟩
        have hx2 := (hqperm.mem_iff).mp hx
        rcases List.mem_append.mp hx2 with hx2 | hx2
        · have : x.id < s.nextId := hbnd x.id (List.mem_append_left _
            (List.mem_map.mpr ⟨x, hx2, rfl⟩))
          omega
        · rcases List.mem_singleton.mp hx2 with rfl
          simp only at hxi
          omega
      · have : i < s.nextId := hbnd i (List.mem_append_right _ hi)
        omega
    · intro i hi
      have : i < s.nextId := hlogbnd i hi
      omega
    · intro i hi
      rcases List.mem_append.mp hi with hi | hi
      · rcases List.mem_map.mp hi with ⟨x, hx, hxi⟩
        have hx2 := (hqperm.mem_iff).mp hx
        rcases List.mem_append.mp hx2 with hx2 | hx2
        · exact hnotin i (by
            rw [← hxi]
            exact List.mem_append_left _ (List.mem_map.mpr ⟨x, hx2, rfl⟩))
        · rcases List.mem_singleton.mp hx2 with rfl
          simp only at hxi
          intro hcon
          have := hlogbnd i hcon
          omega
      · exact hnotin i (List.mem_append_right _ hi)
  | some old =>
    dsimp only
    simp only [QueueInv, liveIds]
    have hold_mem : old ∈ s.queue := List.mem_of_find?_eq_some hfind
    have hold_uri : old.uri = uri := by
      have := List.find?_some hfind
      simpa using this
    have hold_lt : old.id < s.nextId :=
      hbnd old.id (List.mem_append_left _ (List.mem_map.mpr ⟨old, hold_mem, rfl⟩))
    have hold_notlog : old.id ∉ s.supersededLog :=
      hnotin old.id (List.mem_append_left _ (List.mem_map.mpr ⟨old, hold_mem, rfl⟩))
    have herased : ∀ x ∈ s.queue.eraseP (fun it => it.uri == uri), x.uri ≠ uri :=
      eraseP_key_not_mem (fun it => it.uri) uri s.queue hu
    have herased_mem : ∀ x ∈ s.queue.eraseP (fun it => it.uri == uri), x ∈ s.queue :=
      fun x hx => (List.eraseP_sublist s.queue).subset hx
    have hqperm : (sortByPriority (s.queue.eraseP (fun it => it.uri == uri) ++
        [{ id := s.nextId, uri := uri, priority := prio, enqueuedAt := now }])).Perm
        (s.queue.eraseP (fun it => it.uri == uri) ++
          [{ id := s.nextId, uri := uri, priority := prio, enqueuedAt := now }]) :=
      sortByPriority_perm _
    have hesub : ((s.queue.eraseP (fun it => it.uri == uri)).map
        (fun it => it.id)).Sublist (s.queue.map (fun it => it.id)) :=
      (List.eraseP_sublist s.queue).map _
    refine ⟨?_, ?_, ?_, ?_, ?_, ?_⟩
    · refine ((hqperm.map _).nodup_iff).mpr ?_
      rw [List.map_append]
      refine List.Nodup.append
        (((List.eraseP_sublist s.queue).map _).nodup hu)
        (List.nodup_singleton _) ?_
      intro k hk1 hk2
      rcases List.mem_map.mp hk1 with ⟨x, hx, hxk⟩
      rcases List.mem_singleton.mp hk2 with rfl
      exact herased x hx hxk
    · show ((sortByPriority _).map (fun it => it.id) ++
        s.dispatched.map (fun it => it.id)).Nodup
      refine (((hqperm.map (fun it => it.id)).append_right _).nodup_iff).mpr ?_
      rw [List.map_append]
      have hswap : ((((s.queue.eraseP (fun it => it.uri == uri)).map (fun it => it.id)) ++
          [s.nextId]) ++ s.dispatched.map (fun it => it.id)).Perm
          (s.nextId :: (((s.queue.eraseP (fun it => it.uri == uri)).map (fun it => it.id)) ++
            s.dispatched.map (fun it => it.id))) := by
        refine (List.Perm.append_right _ List.perm_append_comm).trans ?_
        simp
      refine hswap.nodup_iff.mpr ?_
      refine List.Nodup.cons ?_ ((hesub.append (List.Sublist.refl _)).nodup hlive)
      intro hmem
      rcases List.mem_append.mp hmem with hmem | hmem
      · rcases List.mem_map.mp hmem with ⟨x, hx, hxi⟩
        have : x.id < s.nextId := hbnd x.id (List.mem_append_left _
          (List.mem_map.mpr ⟨x, herased_mem x hx, rfl⟩))
        omega
      · have : s.nextId < s.nextId := hbnd s.nextId (List.mem_append_right _ hmem)
        omega
    · refine List.Nodup.append hlog (List.nodup_singleton _) ?_
      intro k hk1 hk2
      rcases List.mem_singleton.mp hk2 with rfl
      exact hold_notlog hk1
    · intro i hi
      rcases List.mem_append.mp hi with hi | hi
      · rcases List.mem_map.mp hi with ⟨x, hx, hxi⟩
        have hx2 := (hqperm.mem_iff).mp hx
        rcases List.mem_append.mp hx2 with hx2 | hx2
        · have : x.id < s.nextId := hbnd x.id (List.mem_append_left _
            (List.mem_map.mpr ⟨x, herased_mem x hx2, rfl⟩))
          omega
        · rcases List.mem_singleton.mp hx2 with rfl
          simp only at hxi
          omega
      · have : i < s.nextId := hbnd i (List.mem_append_right _ hi)
        omega
    · intro i hi
      rcases List.mem_append.mp hi with hi | hi
      · have : i < s.nextId := hlogbnd i hi
        omega
      · rcases List.mem_singleton.mp hi with rfl
        omega
    · intro i hi hcon
      rcases List.mem_append.mp hcon with hcon | hcon
      · -- i was already superseded: impossible for a live id
        rcases List.mem_append.mp hi with hi | hi
        · rcases List.mem_map.mp hi with ⟨x, hx, hxi⟩
          have hx2 := (hqperm.mem_iff).mp hx
          rcases List.mem_append.mp hx2 with hx2 | hx2
          · exact hnotin i (by
              rw [← hxi]
              exact List.mem_append_left _
                (List.mem_map.mpr ⟨x, herased_mem x hx2, rfl⟩)) hcon
          · rcases List.mem_singleton.mp hx2 with rfl
            simp only at hxi
            have := hlogbnd i hcon
            omega
        · exact hnotin i (List.mem_append_right _ hi) hcon
      · -- i equals the superseded id: the erased item is gone and ids are unique
        rcases List.mem_singleton.mp hcon with rfl
        rcases List.mem_append.mp hi with hi | hi
        · rcases List.mem_map.mp hi with ⟨x, hx, hxi⟩
          have hx2 := (hqperm.mem_iff).mp hx
          rcases List.mem_append.mp hx2 with hx2 | hx2
          · have hxq : x ∈ s.queue := herased_mem x hx2
            have hxold : x = old := List.inj_on_of_nodup_map hqnodup hxq hold_mem (by
              rw [hxi])
            rw [hxold] at hx2
            exact herased old hx2 hold_uri
          · rcases List.mem_singleton.mp hx2 with rfl
            simp only at hxi
            omega
        · rcases List.mem_map.mp hi with ⟨x, hx, hxi⟩
          exact hdisj (List.mem_map.mpr ⟨old, hold_mem, rfl⟩)
            (List.mem_map.mpr ⟨x, hx, hxi⟩)

/-- Helper: `dispatchStep` preserves the bridge queue invariant. -/
theorem dispatchStep_inv (s : BridgeQueueState) (h : QueueInv s) :
    QueueInv (dispatchStep s) := by
  obtain ⟨hu, hlive, hlog, hbnd, hlogbnd, hnotin⟩ := h
  simp only [liveIds] at hlive hbnd hnotin
  unfold dispatchStep
  cases hq : s.queue with
  | nil => exact ⟨hu, hlive, hlog, hbnd, hlogbnd, hnotin⟩
  | cons it rest =>
    rw [hq, List.map_cons] at hu hlive hbnd hnotin
    show QueueInv (BridgeQueueState.mk rest (s.dispatched ++ [it]) s.supersededLog s.nextId)
    simp only [QueueInv, liveIds]
    have hperm : (rest.map (fun x => x.id) ++
        (s.dispatched ++ [it]).map (fun x => x.id)).Perm
        (it.id :: rest.map (fun x => x.id) ++ s.dispatched.map (fun x => x.id)) := by
      rw [List.map_append, List.map_singleton, ← List.append_assoc]
      exact List.perm_append_comm
    refine ⟨?_, ?_, hlog, ?_, hlogbnd, ?_⟩
    · exact hu.of_cons
    · exact hperm.nodup_iff.mpr hlive
    · intro i hi
      apply hbnd
      exact (hperm.mem_iff).mp hi
    · intro i hi
      apply hnotin
      exact (hperm.mem_iff).mp hi

/-- Helper: the bridge queue invariant holds along every event sequence. -/
theorem bridgeEvents_inv_aux :
    ∀ (evs : List BridgeEvent) (s : BridgeQueueState),
      QueueInv s → QueueInv (evs.foldl applyBridgeEvent s) := by
  intro evs
  induction evs with
  | nil => intro s h; exact h
  | cons ev rest ih =>
    intro s h
    rw [List.foldl_cons]
    apply ih
    cases ev with
    | enqueue uri prio now => exact enqueueStep_inv s uri prio now h
    | dispatchOne => exact dispatchStep_inv s h

/-- C2: in every state reachable by enqueue/dispatch events the analysis
queue holds at most one queued item per uri, every completion is
superseded-failed at most once, and no live (queued or dispatched)
completion has been superseded; moreover, when `analyzeFile` enqueues for a
uri that already has a queued item, the older item's completion is failed
exactly then with the superseded error, the older item leaves the queue,
the new request is enqueued with its own priority and timestamp, and the
dispatched (in-flight) requests are untouched. -/
theorem c2_queue_dedup_supersede :
    (∀ evs : List BridgeEvent, QueueInv (runBridgeEvents evs)) ∧
    (∀ (s : BridgeQueueState) (uri : String) (prio now : Nat) (old : QItem),
      QueueInv s → old ∈ s.queue → old.uri = uri →
      ∀ s2, s2 = enqueueStep s uri prio now →
        s2.supersededLog = s.supersededLog ++ [old.id] ∧
        old ∉ s2.queue ∧
        QItem.mk s.nextId uri prio now ∈ s2.queue ∧
        s2.dispatched = s.dispatched ∧
        old.id ∉ liveIds s2) := by
  constructor
  · intro evs
    apply bridgeEvents_inv_aux
    exact ⟨by simp [initBridgeQueue], by simp [initBridgeQueue, liveIds],
      by simp [initBridgeQueue], by simp [initBridgeQueue, liveIds],
      by simp [initBridgeQueue], by simp [initBridgeQueue, liveIds]⟩
  · intro s uri prio now old hinv hold_mem hold_uri s2 hs2
    obtain ⟨hu, hlive, hlog, hbnd, hlogbnd, hnotin⟩ := hinv
    have hqnodup : (s.queue.map (fun it => it.id)).Nodup := by
      have := hlive
      simp only [liveIds] at this
      exact (List.nodup_append.mp this).1
    have hdisj : (s.queue.map (fun it => it.id)).Disjoint
        (s.dispatched.map (fun it => it.id)) := by
      have := hlive
      simp only [liveIds] at this
      exact (List.nodup_append.mp this).2.2
    have hold_lt : old.id < s.nextId := by
      apply hbnd
      simp only [liveIds]
      exact List.mem_append_left _ (List.mem_map.mpr ⟨old, hold_mem, rfl⟩)
    have hfind : s.queue.find? (fun it => it.uri == uri) = some old :=
      find?_key_unique (fun it => it.uri) uri s.queue hu old hold_mem hold_uri
    subst hs2
    unfold enqueueStep
    rw [hfind]
    dsimp only
    have hqperm : (sortByPriority (s.queue.eraseP (fun it => it.uri == uri) ++
        [QItem.mk s.nextId uri prio now])).Perm
        (s.queue.eraseP (fun it => it.uri == uri) ++ [QItem.mk s.nextId uri prio now]) :=
      sortByPriority_perm _
    refine ⟨rfl, ?_, ?_, rfl, ?_⟩
    · intro hcon
      rcases List.mem_append.mp ((hqperm.mem_iff).mp hcon) with hcon | hcon
      · exact eraseP_key_not_mem (fun it => it.uri) uri s.queue hu old hcon hold_uri
      · rcases List.mem_singleton.mp hcon with hcon
        have : old.id = s.nextId := by rw [hcon]
        omega
    · exact (hqperm.mem_iff).mpr (List.mem_append_right _ (List.mem_singleton_self _))
    · intro hcon
      simp only [liveIds] at hcon
      rcases List.mem_append.mp hcon with hcon | hcon
      · rcases List.mem_map.mp hcon with ⟨x, hx, hxi⟩
        rcases List.mem_append.mp ((hqperm.mem_iff).mp hx) with hx2 | hx2
        · have hxq : x ∈ s.queue := (List.eraseP_sublist s.queue).subset hx2
          have hxold : x = old := List.inj_on_of_nodup_map hqnodup hxq hold_mem hxi
          rw [hxold] at hx2
          exact eraseP_key_not_mem (fun it => it.uri) uri s.queue hu old hx2 hold_uri
        · rcases List.mem_singleton.mp hx2 with rfl
          simp only at hxi
          omega
      · rcases List.mem_map.mp hcon with ⟨x, hx, hxi⟩
        exact hdisj (List.mem_map.mpr ⟨old, hold_mem, rfl⟩)
          (List.mem_map.mpr ⟨x, hx, hxi⟩)

/-- Witness for C2 at a concrete event trace and a concrete supersession. -/
theorem c2_queue_dedup_supersede_witness :
    QueueInv (runBridgeEvents
      [BridgeEvent.enqueue "u" 1 0, BridgeEvent.dispatchOne,
       BridgeEvent.enqueue "v" 1 1, BridgeEvent.enqueue "v" 0 2]) ∧
    ((QueueInv (BridgeQueueState.mk [QItem.mk 0 "u" 1 0] [] [] 1)) ∧
      QItem.mk 0 "u" 1 0 ∈ (BridgeQueueState.mk [QItem.mk 0 "u" 1 0] [] [] 1).queue ∧
      (QItem.mk 0 "u" 1 0).uri = "u") ∧
    ((enqueueStep (BridgeQueueState.mk [QItem.mk 0 "u" 1 0] [] [] 1) "u" 0 5).supersededLog
        = [] ++ [(QItem.mk 0 "u" 1 0).id] ∧
      QItem.mk 0 "u" 1 0 ∉ (enqueueStep (BridgeQueueState.mk [QItem.mk 0 "u" 1 0] [] [] 1) "u" 0 5).queue ∧
      QItem.mk 1 "u" 0 5 ∈ (enqueueStep (BridgeQueueState.mk [QItem.mk 0 "u" 1 0] [] [] 1) "u" 0 5).queue ∧
      (enqueueStep (BridgeQueueState.mk [QItem.mk 0 "u" 1 0] [] [] 1) "u" 0 5).dispatched = [] ∧
      (QItem.mk 0 "u" 1 0).id ∉ liveIds (enqueueStep (BridgeQueueState.mk [QItem.mk 0 "u" 1 0] [] [] 1) "u" 0 5)) :=
  ⟨c2_queue_dedup_supersede.1
      [BridgeEvent.enqueue "u" 1 0, BridgeEvent.dispatchOne,
       BridgeEvent.enqueue "v" 1 1, BridgeEvent.enqueue "v" 0 2],
    ⟨⟨by decide, by decide, by decide, by decide, by decide, by decide⟩,
      by decide, by decide⟩,
    c2_queue_dedup_supersede.2 (BridgeQueueState.mk [QItem.mk 0 "u" 1 0] [] [] 1)
      "u" 0 5 (QItem.mk 0 "u" 1 0)
      ⟨by decide, by decide, by decide, by decide, by decide, by decide⟩
      (by decide) (by decide) _ rfl⟩

/-- Helper: every dependent listed in an adjacency map is a node of the
map. -/
theorem mem_nodesF_of_pair (x : String) :
    ∀ (g : List (String × List String)) (p : String × List String),
      p ∈ g → x ∈ p.2 → x ∈ nodesF g := by
  intro g
  induction g with
  | nil => intro p hp; simp at hp
  | cons a t ih =>
    intro p hp hx
    show x ∈ insert a.1 (nodesF t) ∪ a.2.toFinset
    rcases List.mem_cons.mp hp with rfl | hp
    · exact Finset.mem_union_right _ (List.mem_toFinset.mpr hx)
    · exact Finset.mem_union_left _ (Finset.mem_insert_of_mem (ih p hp hx))

/-- Helper: successors live inside the node set. -/
theorem mem_nodesF_of_succs (g : List (String × List String)) (u x : String)
    (hx : x ∈ succsOf g u) : x ∈ nodesF g := by
  unfold succsOf at hx
  cases hl : g.lookup u with
  | none => rw [hl] at hx; simp at hx
  | some vs =>
    rw [hl] at hx
    simp only [Option.getD_some] at hx
    rcases lookup_mem_pair u vs g hl with ⟨p, hp, _, hpv⟩
    exact mem_nodesF_of_pair x g p hp (by rw [hpv]; exact hx)

/-- Helper: a neighbor list is never longer than the edge total. -/
theorem succs_len_le (g : List (String × List String)) (u : String) :
    (succsOf g u).length ≤ edgeTotal g := by
  unfold succsOf
  cases hl : g.lookup u with
  | none => simp
  | some vs =>
    simp only [Option.getD_some]
    rcases lookup_mem_pair u vs g hl with ⟨p, hp, _, hpv⟩
    rw [← hpv]
    exact List.single_le_sum (by intro x _; omega) _
      (List.mem_map.mpr ⟨p, hp, rfl⟩)

/-- Helper: skipping an already-visited queue head decreases the BFS
measure. -/
theorem bfsMeasure_skip (g : List (String × List String))
    (visited rest : List String) (current : String) :
    bfsMeasure g visited rest < bfsMeasure g visited (current :: rest) := by
  unfold bfsMeasure
  have hsub : (nodesF g ∪ rest.toFinset) \ visited.toFinset ⊆
      (nodesF g ∪ (current :: rest).toFinset) \ visited.toFinset := by
    intro x hx
    rw [Finset.mem_sdiff] at hx ⊢
    refine ⟨?_, hx.2⟩
    rcases Finset.mem_union.mp hx.1 with h | h
    · exact Finset.mem_union_left _ h
    · refine Finset.mem_union_right _ ?_
      rw [List.toFinset_cons]
      exact Finset.mem_insert_of_mem h
  have hcard := Finset.card_le_card hsub
  have hmul := Nat.mul_le_mul_right (edgeTotal g + 1) hcard
  simp only [List.length_cons]
  omega

/-- Helper: processing a fresh queue head decreases the BFS measure. -/
theorem bfsMeasure_process (g : List (String × List String))
    (visited rest : List String) (current : String) (hnv : current ∉ visited) :
    bfsMeasure g (visited ++ [current])
      (rest ++ (succsOf g current).filter (fun d => !(visited ++ [current]).contains d)) <
    bfsMeasure g visited (current :: rest) := by
  unfold bfsMeasure
  have hsub : (nodesF g ∪
      (rest ++ (succsOf g current).filter
        (fun d => !(visited ++ [current]).contains d)).toFinset) \
        (visited ++ [current]).toFinset ⊆
      ((nodesF g ∪ (current :: rest).toFinset) \ visited.toFinset).erase current := by
    intro x hx
    rw [Finset.mem_sdiff] at hx
    rw [Finset.mem_erase, Finset.mem_sdiff]
    have hxv : x ∉ visited.toFinset ∧ x ≠ current := by
      have h2 := hx.2
      rw [List.toFinset_append, Finset.mem_union] at h2
      constructor
      · intro hcon; exact h2 (Or.inl hcon)
      · intro hcon; exact h2 (Or.inr (by rw [hcon]; simp))
    refine ⟨hxv.2, ?_, hxv.1⟩
    rcases Finset.mem_union.mp hx.1 with h | h
    · exact Finset.mem_union_left _ h
    · rw [List.toFinset_append, Finset.mem_union] at h
      rcases h with h | h
      · refine Finset.mem_union_right _ ?_
        rw [List.toFinset_cons]
        exact Finset.mem_insert_of_mem h
      · have hxs : x ∈ succsOf g current :=
          List.mem_of_mem_filter (List.mem_toFinset.mp h)
        exact Finset.mem_union_left _ (mem_nodesF_of_succs g current x hxs)
  have hcur : current ∈ (nodesF g ∪ (current :: rest).toFinset) \ visited.toFinset := by
    rw [Finset.mem_sdiff]
    refine ⟨Finset.mem_union_right _ ?_, ?_⟩
    · rw [List.toFinset_cons]
      exact Finset.mem_insert_self _ _
    · rw [List.mem_toFinset]
      exact hnv
  have hcard : ((nodesF g ∪
      (rest ++ (succsOf g current).filter
        (fun d => !(visited ++ [current]).contains d)).toFinset) \
        (visited ++ [current]).toFinset).card + 1 ≤
      ((nodesF g ∪ (current :: rest).toFinset) \ visited.toFinset).card := by
    have h1 := Finset.card_le_card hsub
    rw [Finset.card_erase_of_mem hcur] at h1
    have h2 : 0 < ((nodesF g ∪ (current :: rest).toFinset) \ visited.toFinset).card :=
      Finset.card_pos.mpr ⟨current, hcur⟩
    omega
  have hlen : ((succsOf g current).filter
      (fun d => !(visited ++ [current]).contains d)).length ≤ edgeTotal g :=
    le_trans (List.length_filter_le _ _) (succs_len_le g current)
  have hmul := Nat.mul_le_mul_right (edgeTotal g + 1) hcard
  rw [Nat.succ_mul] at hmul
  simp only [List.length_append, List.length_cons]
  omega

/-- Helper: the BFS of `invalidateWithDependents` terminates — fuel
`bfsMeasure` always suffices, cycles included. -/
theorem bfsAux_isSome {T : Type} (g : List (String × List String)) :
    ∀ (fuel : Nat) (cache : FileCache T) (visited queue : List String),
      bfsMeasure g visited queue ≤ fuel →
      (bfsAux g fuel cache visited queue).isSome := by
  intro fuel
  induction fuel with
  | zero =>
    intro cache visited queue hle
    cases queue with
    | nil => simp [bfsAux]
    | cons c r =>
      exfalso
      have hlen : (c :: r).length ≤ bfsMeasure g visited (c :: r) := by
        unfold bfsMeasure
        exact Nat.le_add_left _ _
      simp only [List.length_cons] at hlen
      omega
  | succ f ih =>
    intro cache visited queue hle
    cases queue with
    | nil => simp [bfsAux]
    | cons c r =>
      simp only [bfsAux]
      by_cases hc : c ∈ visited
      · rw [if_pos hc]
        apply ih
        have := bfsMeasure_skip g visited r c
        omega
      · rw [if_neg hc]
        apply ih
        have := bfsMeasure_process g visited r c hc
        omega

/-- Helper: the BFS result extends the visited accumulator. -/
theorem bfsAux_visited_sub {T : Type} (g : List (String × List String)) :
    ∀ (fuel : Nat) (cache : FileCache T) (visited queue resV : List String)
      (resC : FileCache T),
      bfsAux g fuel cache visited queue = some (resV, resC) →
      ∀ v ∈ visited, v ∈ resV := by
  intro fuel
  induction fuel with
  | zero =>
    intro cache visited queue resV resC heq v hv
    cases queue with
    | nil =>
      simp only [bfsAux, Option.some.injEq, Prod.mk.injEq] at heq
      rw [← heq.1]
      exact hv
    | cons c r => simp [bfsAux] at heq
  | succ f ih =>
    intro cache visited queue resV resC heq v hv
    cases queue with
    | nil =>
      simp only [bfsAux, Option.some.injEq, Prod.mk.injEq] at heq
      rw [← heq.1]
      exact hv
    | cons c r =>
      simp only [bfsAux] at heq
      by_cases hc : c ∈ visited
      · rw [if_pos hc] at heq
        exact ih _ _ _ _ _ heq v hv
      · rw [if_neg hc] at heq
        exact ih _ _ _ _ _ heq v (List.mem_append_left _ hv)

/-- Helper: every queued uri ends up visited. -/
theorem bfsAux_queue_sub {T : Type} (g : List (String × List String)) :
    ∀ (fuel : Nat) (cache : FileCache T) (visited queue resV : List String)
      (resC : FileCache T),
      bfsAux g fuel cache visited queue = some (resV, resC) →
      ∀ q ∈ queue, q ∈ resV := by
  intro fuel
  induction fuel with
  | zero =>
    intro cache visited queue resV resC heq q hq
    cases queue with
    | nil => simp at hq
    | cons c r => simp [bfsAux] at heq
  | succ f ih =>
    intro cache visited queue resV resC heq q hq
    cases queue with
    | nil => simp at hq
    | cons c r =>
      simp only [bfsAux] at heq
      by_cases hc : c ∈ visited
      · rw [if_pos hc] at heq
        rcases List.mem_cons.mp hq with rfl | hq
        · exact bfsAux_visited_sub g f _ _ _ _ _ heq q hc
        · exact ih _ _ _ _ _ heq q hq
      · rw [if_neg hc] at heq
        rcases List.mem_cons.mp hq with rfl | hq
        · exact bfsAux_visited_sub g f _ _ _ _ _ heq q
            (List.mem_append_right _ (List.mem_singleton_self _))
        · exact ih _ _ _ _ _ heq q (List.mem_append_left _ hq)

/-- Helper: every visited uri is reachable from the accumulator or the
queue along reverse-dependency edges. -/
theorem bfsAux_sound {T : Type} (g : List (String × List String)) :
    ∀ (fuel : Nat) (cache : FileCache T) (visited queue resV : List String)
      (resC : FileCache T),
      bfsAux g fuel cache visited queue = some (resV, resC) →
      ∀ v ∈ resV, v ∈ visited ∨
        ∃ q ∈ queue, Relation.ReflTransGen (DependedOnByEdge g) q v := by
  intro fuel
  induction fuel with
  | zero =>
    intro cache visited queue resV resC heq v hv
    cases queue with
    | nil =>
      simp only [bfsAux, Option.some.injEq, Prod.mk.injEq] at heq
      rw [← heq.1] at hv
      exact Or.inl hv
    | cons c r => simp [bfsAux] at heq
  | succ f ih =>
    intro cache visited queue resV resC heq v hv
    cases queue with
    | nil =>
      simp only [bfsAux, Option.some.injEq, Prod.mk.injEq] at heq
      rw [← heq.1] at hv
      exact Or.inl hv
    | cons c r =>
      simp only [bfsAux] at heq
      by_cases hc : c ∈ visited
      · rw [if_pos hc] at heq
        rcases ih _ _ _ _ _ heq v hv with h | ⟨q, hq, hrt⟩
        · exact Or.inl h
        · exact Or.inr ⟨q, List.mem_cons_of_mem _ hq, hrt⟩
      · rw [if_neg hc] at heq
        rcases ih _ _ _ _ _ heq v hv with h | ⟨q, hq, hrt⟩
        · rcases List.mem_append.mp h with h | h
          · exact Or.inl h
          · rcases List.mem_singleton.mp h with rfl
            exact Or.inr ⟨v, List.mem_cons_self _ _, Relation.ReflTransGen.refl⟩
        · rcases List.mem_append.mp hq with hq | hq
          · exact Or.inr ⟨q, List.mem_cons_of_mem _ hq, hrt⟩
          · have hqe : q ∈ succsOf g c := List.mem_of_mem_filter hq
            exact Or.inr ⟨c, List.mem_cons_self _ _,
              Relation.ReflTransGen.head hqe hrt⟩

/-- Helper: the visited result is closed under reverse-dependency edges,
given the standard BFS frontier invariant. -/
theorem bfsAux_closed {T : Type} (g : List (String × List String)) :
    ∀ (fuel : Nat) (cache : FileCache T) (visited queue resV : List String)
      (resC : FileCache T),
      bfsAux g fuel cache visited queue = some (resV, resC) →
      (∀ x ∈ visited, ∀ y ∈ succsOf g x, y ∈ visited ∨ y ∈ queue) →
      ∀ x ∈ resV, ∀ y ∈ succsOf g x, y ∈ resV := by
  intro fuel
  induction fuel with
  | zero =>
    intro cache visited queue resV resC heq hfront x hx y hy
    cases queue with
    | nil =>
      simp only [bfsAux, Option.some.injEq, Prod.mk.injEq] at heq
      rcases heq with ⟨h1, _⟩
      rw [← h1] at hx ⊢
      rcases hfront x hx y hy with h | h
      · exact h
      · simp at h
    | cons c r => simp [bfsAux] at heq
  | succ f ih =>
    intro cache visited queue resV resC heq hfront x hx y hy
    cases queue with
    | nil =>
      simp only [bfsAux, Option.some.injEq, Prod.mk.injEq] at heq
      rcases heq with ⟨h1, _⟩
      rw [← h1] at hx ⊢
      rcases hfront x hx y hy with h | h
      · exact h
      · simp at h
    | cons c r =>
      simp only [bfsAux] at heq
      by_cases hc : c ∈ visited
      · rw [if_pos hc] at heq
        refine ih _ _ _ _ _ heq ?_ x hx y hy
        intro a ha b hb
        rcases hfront a ha b hb with h | h
        · exact Or.inl h
        · rcases List.mem_cons.mp h with rfl | h
          · exact Or.inl hc
          · exact Or.inr h
      · rw [if_neg hc] at heq
        refine ih _ _ _ _ _ heq ?_ x hx y hy
        intro a ha b hb
        rcases List.mem_append.mp ha with ha | ha
        · rcases hfront a ha b hb with h | h
          · exact Or.inl (List.mem_append_left _ h)
          · rcases List.mem_cons.mp h with rfl | h
            · exact Or.inl (List.mem_append_right _ (List.mem_singleton_self _))
            · exact Or.inr (List.mem_append_left _ h)
        · rcases List.mem_singleton.mp ha with rfl
          by_cases hbv : b ∈ visited ++ [a]
          · exact Or.inl hbv
          · refine Or.inr (List.mem_append_right _ ?_)
            refine List.mem_filter.mpr ⟨hb, ?_⟩
            simpa using hbv

/-- Helper: `deleteEntry` keeps the cache keys distinct. -/
theorem deleteEntry_keys_nodup {T : Type} (c : FileCache T) (u : String)
    (h : (c.entries.map Prod.fst).Nodup) :
    (((FileCache.deleteEntry c u).1).entries.map Prod.fst).Nodup := by
  unfold FileCache.deleteEntry
  cases hl : c.entries.lookup u with
  | none => exact h
  | some e => exact ((List.eraseP_sublist c.entries).map _).nodup h

/-- Helper: after `deleteEntry` the key is absent. -/
theorem deleteEntry_lookup_self {T : Type} (c : FileCache T) (u : String)
    (h : (c.entries.map Prod.fst).Nodup) :
    ((FileCache.deleteEntry c u).1).entries.lookup u = none := by
  unfold FileCache.deleteEntry
  cases hl : c.entries.lookup u with
  | none => exact hl
  | some e =>
    dsimp only
    rw [List.lookup_eq_none_iff]
    intro p hp
    have := eraseP_key_not_mem Prod.fst u c.entries h p hp
    simpa using fun hco => this hco.symm

/-- Helper: `deleteEntry` keeps absent keys absent. -/
theorem deleteEntry_lookup_none {T : Type} (c : FileCache T) (u v : String)
    (h : c.entries.lookup v = none) :
    ((FileCache.deleteEntry c u).1).entries.lookup v = none := by
  unfold FileCache.deleteEntry
  cases hl : c.entries.lookup u with
  | none => exact h
  | some e =>
    dsimp only
    rw [List.lookup_eq_none_iff] at h ⊢
    intro p hp
    exact h p ((List.eraseP_sublist c.entries).subset hp)

/-- Helper: the BFS drops the cache entry of every visited uri. -/
theorem bfsAux_cache_none {T : Type} (g : List (String × List String)) :
    ∀ (fuel : Nat) (cache : FileCache T) (visited queue resV : List String)
      (resC : FileCache T),
      bfsAux g fuel cache visited queue = some (resV, resC) →
      (cache.entries.map Prod.fst).Nodup →
      (∀ v ∈ visited, cache.entries.lookup v = none) →
      ∀ v ∈ resV, resC.entries.lookup v = none := by
  intro fuel
  induction fuel with
  | zero =>
    intro cache visited queue resV resC heq hnd hvis v hv
    cases queue with
    | nil =>
      simp only [bfsAux, Option.some.injEq, Prod.mk.injEq] at heq
      rcases heq with ⟨h1, h2⟩
      rw [← h2]
      rw [← h1] at hv
      exact hvis v hv
    | cons c r => simp [bfsAux] at heq
  | succ f ih =>
    intro cache visited queue resV resC heq hnd hvis v hv
    cases queue with
    | nil =>
      simp only [bfsAux, Option.some.injEq, Prod.mk.injEq] at heq
      rcases heq with ⟨h1, h2⟩
      rw [← h2]
      rw [← h1] at hv
      exact hvis v hv
    | cons c r =>
      simp only [bfsAux] at heq
      by_cases hc : c ∈ visited
      · rw [if_pos hc] at heq
        exact ih _ _ _ _ _ heq hnd hvis v hv
      · rw [if_neg hc] at heq
        refine ih _ _ _ _ _ heq (deleteEntry_keys_nodup cache c hnd) ?_ v hv
        intro w hw
        rcases List.mem_append.mp hw with hw | hw
        · exact deleteEntry_lookup_none cache c w (hvis w hw)
        · rcases List.mem_singleton.mp hw with rfl
          exact deleteEntry_lookup_self cache w hnd

/-- C9: for every dependency graph and uri, `invalidateWithDependents`
terminates (also on cyclic graphs — the measure fuel always suffices),
returns exactly the set of uris reachable from the start along
reverse-dependency edges (the start included), and afterwards no cache
entry exists for any uri of the returned set. -/
theorem c9_invalidate_cascade (T : Type) (tc : TypeCacheState T) (uri : String)
    (hnd : (tc.cache.entries.map Prod.fst).Nodup) :
    ∃ res tc2,
      invalidateWithDependents tc uri = some (res, tc2) ∧
      uri ∈ res ∧
      (∀ v, v ∈ res ↔
        Relation.ReflTransGen (DependedOnByEdge tc.dependedOnBy) uri v) ∧
      (∀ v ∈ res, tc2.cache.entries.lookup v = none) := by
  have hsome := bfsAux_isSome tc.dependedOnBy
    (bfsMeasure tc.dependedOnBy [] [uri]) tc.cache [] [uri] (Nat.le_refl _)
  rcases Option.isSome_iff_exists.mp hsome with ⟨⟨resV, resC⟩, heq⟩
  refine ⟨resV, { tc with cache := resC }, ?_, ?_, ?_, ?_⟩
  · unfold invalidateWithDependents
    rw [heq]
    rfl
  · exact bfsAux_queue_sub tc.dependedOnBy _ _ _ _ _ _ heq uri
      (List.mem_singleton_self _)
  · intro v
    constructor
    · intro hv
      rcases bfsAux_sound tc.dependedOnBy _ _ _ _ _ _ heq v hv with h | ⟨q, hq, hrt⟩
      · simp at h
      · rcases List.mem_singleton.mp hq with rfl
        exact hrt
    · intro hrt
      induction hrt with
      | refl =>
        exact bfsAux_queue_sub tc.dependedOnBy _ _ _ _ _ _ heq uri
          (List.mem_singleton_self _)
      | tail hab hbc ih =>
        exact bfsAux_closed tc.dependedOnBy _ _ _ _ _ _ heq
          (by intro x hx; simp at hx) _ ih _ hbc
  · intro v hv
    exact bfsAux_cache_none tc.dependedOnBy _ _ _ _ _ _ heq hnd
      (by intro w hw; simp at hw) v hv

/-- Witness for C9 at a concrete cyclic reverse-dependency graph
(lib → a → lib, lib → b) with cached entries for all three files. -/
theorem c9_invalidate_cascade_witness :
    ((TypeCacheState.mk
        (FileCache.mk
          [("lib", CacheEntry.mk 1 "h" 0 0 0 1), ("a", CacheEntry.mk 2 "h" 0 0 0 1),
           ("b", CacheEntry.mk 3 "h" 0 0 0 1), ("c", CacheEntry.mk 4 "h" 0 0 0 1)]
          10 100 1000 4 0 0 0)
        [] [("lib", ["a", "b"]), ("a", ["lib"])]).cache.entries.map Prod.fst).Nodup ∧
    (∃ res tc2,
      invalidateWithDependents
        (TypeCacheState.mk
          (FileCache.mk
            [("lib", CacheEntry.mk 1 "h" 0 0 0 1), ("a", CacheEntry.mk 2 "h" 0 0 0 1),
             ("b", CacheEntry.mk 3 "h" 0 0 0 1), ("c", CacheEntry.mk 4 "h" 0 0 0 1)]
            10 100 1000 4 0 0 0)
          [] [("lib", ["a", "b"]), ("a", ["lib"])]) "lib" = some (res, tc2) ∧
      "lib" ∈ res ∧
      (∀ v, v ∈ res ↔
        Relation.ReflTransGen
          (DependedOnByEdge [("lib", ["a", "b"]), ("a", ["lib"])]) "lib" v) ∧
      (∀ v ∈ res, tc2.cache.entries.lookup v = none)) :=
  ⟨by decide,
    c9_invalidate_cascade Nat
      (TypeCacheState.mk
        (FileCache.mk
          [("lib", CacheEntry.mk 1 "h" 0 0 0 1), ("a", CacheEntry.mk 2 "h" 0 0 0 1),
           ("b", CacheEntry.mk 3 "h" 0 0 0 1), ("c", CacheEntry.mk 4 "h" 0 0 0 1)]
          10 100 1000 4 0 0 0)
        [] [("lib", ["a", "b"]), ("a", ["lib"])]) "lib" (by decide)⟩

/-- C5: evaluation of the code at the failing input.  With `maxEntries = 1`
the second insertion must evict the least-recently-accessed entry, whose
key is the empty string; the JavaScript truthiness guard `if (oldestUri)`
skips the deletion, `evictLRU` removes nothing (first conjunct), and the
`evictIfNeeded` loop therefore never terminates (second conjunct: the
fuelled model reports divergence). -/
theorem c5_evict_skips_empty_uri_bug :
    FileCache.evictLRU
        (FileCache.mk [("", CacheEntry.mk 7 "h1" 0 0 0 1), ("a", CacheEntry.mk 8 "h2" 1 0 1 1)]
          1 1000000 1000 2 0 0 0) =
      (FileCache.mk [("", CacheEntry.mk 7 "h1" 0 0 0 1), ("a", CacheEntry.mk 8 "h2" 1 0 1 1)]
          1 1000000 1000 2 0 0 0) ∧
    ((FileCache.set (FileCache.init Nat ⟨1, 1000000, 1000⟩) "" "h1" 7 1 0).bind
      (fun c1 => FileCache.set c1 "a" "h2" 8 1 1)) = none := by decide

end TsgoTurbo
